import Mathlib

/-!
Verification of the context-aware word replacement engine from the
TextEditor component: tokenizer, classifier, phrase scope resolver,
replacement rules, reassembler, and the edit history model.

Strings are modelled as lists of characters.  The JavaScript whitespace
class is modelled on its ASCII part, which covers all inputs considered
here.
-/

/-- Character-list model of JavaScript strings. -/
abbrev Str := List Char

/-- Conversion from Lean string literals. -/
def str (s : String) : Str := s.data

/-- ASCII part of the JavaScript whitespace class. -/
def isWs (c : Char) : Bool :=
  c == ' ' || c == '\t' || c == '\n' || c == '\r' || c == '\x0b' || c == '\x0c'

/-- JavaScript `toLowerCase` on ASCII letters. -/
def lowCh (c : Char) : Char :=
  if 'A' ≤ c && c ≤ 'Z' then Char.ofNat (c.toNat + 32) else c

/-- Lowercase a whole string. -/
def lowerStr (l : Str) : Str := l.map lowCh

/-- JavaScript `String.prototype.trim`: drop whitespace from both ends. -/
def trimStr (l : Str) : Str :=
  ((l.dropWhile isWs).reverse.dropWhile isWs).reverse

/-- Decide whether `p` is a prefix of `l` (model of regex anchors and
`startsWith`). -/
def isPrefixStr : Str → Str → Bool
  | [], _ => true
  | _ :: _, [] => false
  | a :: as, b :: bs => a == b && isPrefixStr as bs

/-- Decide whether `needle` occurs somewhere inside `hay`: the semantics of
an unanchored JavaScript regex literal word. -/
def hasSub (hay needle : Str) : Bool :=
  match hay with
  | [] => needle.isEmpty
  | c :: rest => isPrefixStr needle (c :: rest) || hasSub rest needle

/-- Decide whether any word in `ws` occurs inside `hay`: the semantics of an
unanchored alternation regex such as `/at|in|on/`. -/
def hasAnySub (hay : Str) (ws : List Str) : Bool :=
  ws.any (fun w => hasSub hay w)

/-- ASCII digit test, the model of regex `\d`. -/
def isDigitCh (c : Char) : Bool := '0' ≤ c && c ≤ '9'

/-- Match of `\d+(:\d+)?\s*(am|pm)` anchored at the start of `l`. -/
def timeAt (l : Str) : Bool :=
  let ds := l.takeWhile isDigitCh
  if ds.isEmpty then false
  else
    let r1 := l.dropWhile isDigitCh
    let r2 :=
      match r1 with
      | ':' :: t => if (t.takeWhile isDigitCh).isEmpty then r1 else t.dropWhile isDigitCh
      | _ => r1
    let r3 := r2.dropWhile isWs
    isPrefixStr (str "am") r3 || isPrefixStr (str "pm") r3

/-- Unanchored match of `\d+(:\d+)?\s*(am|pm)`: some suffix matches. -/
def timeSub : Str → Bool
  | [] => false
  | c :: rest => timeAt (c :: rest) || timeSub rest

/-- Pattern `/monday|tuesday|wednesday|thursday|friday|saturday|sunday/i`
on an already lowercased word. -/
def dayPat (w : Str) : Bool :=
  hasAnySub w [str "monday", str "tuesday", str "wednesday", str "thursday",
    str "friday", str "saturday", str "sunday"]

/-- Pattern `/\d+(:\d+)?\s*(am|pm)|noon|midnight/i`. -/
def timePat (w : Str) : Bool :=
  timeSub w || hasSub w (str "noon") || hasSub w (str "midnight")

/-- Pattern `/(studio|office|room|home|building)/i` used for existing words. -/
def locPat (w : Str) : Bool :=
  hasAnySub w [str "studio", str "office", str "room", str "home", str "building"]

/-- Pattern `/at|in|on|for|with|to|by/i`. -/
def prepPat (w : Str) : Bool :=
  hasAnySub w [str "at", str "in", str "on", str "for", str "with", str "to", str "by"]

/-- Pattern `/the|a|an|this|that|these|those/i`. -/
def artPat (w : Str) : Bool :=
  hasAnySub w [str "the", str "a", str "an", str "this", str "that", str "these", str "those"]

/-- Pattern `/next|last|this|coming|previous/i`. -/
def tempPat (w : Str) : Bool :=
  hasAnySub w [str "next", str "last", str "this", str "coming", str "previous"]

/-- Pattern for replacement-content days, which additionally admits the
relative words tomorrow, today and yesterday. -/
def dayPatNew (w : Str) : Bool :=
  hasAnySub w [str "monday", str "tuesday", str "wednesday", str "thursday",
    str "friday", str "saturday", str "sunday", str "tomorrow", str "today",
    str "yesterday"]

/-- Pattern `/(conference room|office|studio|building|online)/i` used for
replacement content. -/
def locPatNew (w : Str) : Bool :=
  hasAnySub w [str "conference room", str "office", str "studio", str "building",
    str "online"]

/-- Semantic word categories of the classifier. -/
inductive WordType where
  | day | time | location | preposition | article | temporal | other
deriving DecidableEq, Repr

/-- Classifier for existing sentence words (already lowercased), with the
fixed first-match-wins priority order from the source. -/
def classifyWord (w : Str) : WordType :=
  if dayPat w then .day
  else if timePat w then .time
  else if locPat w then .location
  else if prepPat w then .preposition
  else if artPat w then .article
  else if tempPat w then .temporal
  else .other

/-- Classifier for new replacement content (already trimmed and
lowercased); only day, time and location branches exist on this path. -/
def classifyNewContent (w : Str) : WordType :=
  if dayPatNew w then .day
  else if timePat w then .time
  else if locPatNew w then .location
  else .other

/-- Tokenizer: split text into maximal runs of whitespace and
non-whitespace, the model of `text.match(/\S+|\s+/g) || []`.  Built by a
right fold that either extends the first run or starts a new one. -/
def tokenize : Str → List Str
  | [] => []
  | c :: rest =>
    match tokenize rest with
    | [] => [[c]]
    | r :: rs =>
      match r with
      | [] => [c] :: rs
      | d :: ds => if isWs c == isWs d then (c :: d :: ds) :: rs else [c] :: (d :: ds) :: rs

/-- A classified non-whitespace word: original token index, lowercased
text, and semantic type. -/
structure SWord where
  index : Nat
  word : Str
  wtype : WordType
deriving DecidableEq, Repr

/-- Build the structured-word list: walk the token list, skip whitespace
runs, and classify each remaining word (trimmed and lowercased). -/
def buildStructured : List Str → Nat → List SWord
  | [], _ => []
  | w :: rest, i =>
    if (trimStr w).isEmpty then buildStructured rest (i + 1)
    else
      let lw := lowerStr (trimStr w)
      ⟨i, lw, classifyWord lw⟩ :: buildStructured rest (i + 1)

/-- Backward phrase scan.  The argument `a` is one past the position under
inspection, so the first call passes the target's structured position.
Members of type preposition, article or temporal are collected; a word of
a different type stops the scan; the distance check `targetIndex - i > 3`
runs after a word has been collected, exactly as in the source loop. -/
def backScan (sw : List SWord) (tType : WordType) (tIdx : Nat) : Nat → List SWord
  | 0 => []
  | a + 1 =>
    match sw.get? a with
    | none => []
    | some w =>
      if w.wtype = .preposition ∨ w.wtype = .article ∨ w.wtype = .temporal then
        if tIdx - a > 3 then [w] else w :: backScan sw tType tIdx a
      else if w.wtype ≠ tType then []
      else if tIdx - a > 3 then [] else backScan sw tType tIdx a

/-- Forward phrase scan from structured position `i`, with explicit fuel
(the scan always ends once `get?` runs off the list, so any fuel of at
least the list length is exact). -/
def fwdScan (sw : List SWord) (tType : WordType) (tIdx : Nat) : Nat → Nat → List SWord
  | _, 0 => []
  | i, fuel + 1 =>
    match sw.get? i with
    | none => []
    | some w =>
      if w.wtype = tType ∨ w.wtype = .article then
        if i - tIdx > 3 then [w] else w :: fwdScan sw tType tIdx (i + 1) fuel
      else if w.wtype = .preposition ∨ w.wtype = .temporal then []
      else if i - tIdx > 3 then [] else fwdScan sw tType tIdx (i + 1) fuel

/-- Phrase scope resolver: the target first, then the backward members
(nearest first), then the forward members. -/
def findPhraseMembers (sw : List SWord) (target : SWord) : List SWord :=
  match sw.findIdx? (fun w => w.index = target.index) with
  | none => [target]
  | some tIdx =>
    target :: (backScan sw target.wtype tIdx tIdx ++
      fwdScan sw target.wtype tIdx (tIdx + 1) (sw.length + 1))

/-- Case-insensitive strip of `^kw\s+` from the front of `c`, the model of
`c.replace(/^kw\s+/i, "")` for a literal lowercase keyword `kw`. -/
def stripLeadKw (kw c : Str) : Str :=
  let n := kw.length
  let wsNext : Bool :=
    match c.drop n with
    | d :: _ => isWs d
    | [] => false
  if lowerStr (c.take n) = kw ∧ wsNext = true then (c.drop n).dropWhile isWs
  else c

/-- Replacement rule engine: given the phrase, the target and new-content
types, the lowercased trimmed content and the raw content, return the
updated token list and the (possibly trimmed) content to insert.  Each
branch mirrors one `if`/`else if` chain of the source. -/
def applyRules (words : List Str) (phraseMembers : List SWord)
    (targetType newType : WordType) (newContentLower newContent : Str) :
    List Str × Str :=
  if targetType = .day ∧ newType = .day then
    let phrasePreposition := phraseMembers.find? (fun m => m.wtype = .preposition)
    let phraseTemporal := phraseMembers.find? (fun m => m.wtype = .temporal)
    match phrasePreposition with
    | none => (words, newContent)
    | some p =>
      if p.word = str "on" ∧ hasSub newContentLower (str "next") = true then
        (words.set p.index (str "next"), stripLeadKw (str "next") newContent)
      else if hasSub newContentLower (str "tomorrow") = false then
        (words, newContent)
      else if newContentLower = str "tomorrow" then
        let w1 := words.set p.index []
        (match phraseTemporal with
         | some t => w1.set t.index []
         | none => w1, newContent)
      else (words, newContent)
  else if targetType = .location ∧ newType = .location then
    let phrasePreposition := phraseMembers.find? (fun m => m.wtype = .preposition)
    match phrasePreposition with
    | none => (words, newContent)
    | some p =>
      if newContentLower = str "online" then
        let w1 := words.set p.index []
        let phraseArticle := phraseMembers.find? (fun m => m.wtype = .article)
        (match phraseArticle with
         | some a => w1.set a.index []
         | none => w1, newContent)
      else if isPrefixStr (str "in ") newContentLower = true ∧ p.word ≠ str "in" then
        (words.set p.index (str "in"), stripLeadKw (str "in") newContent)
      else (words, newContent)
  else if targetType = .time ∧ newType = .time then
    let phrasePreposition := phraseMembers.find? (fun m => m.wtype = .preposition)
    match phrasePreposition with
    | none => (words, newContent)
    | some p =>
      if isPrefixStr (str "at ") newContentLower = true ∧ p.word ≠ str "at" then
        (words.set p.index (str "at"), stripLeadKw (str "at") newContent)
      else (words, newContent)
  else (words, newContent)

/-- Reassembly step one: drop empty entries and skip a whitespace run that
directly follows another one (first kept), tracking `prevWasSpace`. -/
def cleanupToks : List Str → Bool → List Str
  | [], _ => []
  | w :: rest, prevWasSpace =>
    if w.isEmpty then cleanupToks rest prevWasSpace
    else if w.all isWs && prevWasSpace then cleanupToks rest prevWasSpace
    else w :: cleanupToks rest (w.all isWs)

/-- Whether a string ends in whitespace, the model of `/\s$/.test`. -/
def endsWs (l : Str) : Bool :=
  match l.getLast? with
  | some c => isWs c
  | none => false

/-- Whether a string starts with whitespace, the model of `/^\s/.test`. -/
def startsWs (l : Str) : Bool :=
  match l.head? with
  | some c => isWs c
  | none => false

/-- Reassembly step two: insert one space after a token that does not end
in whitespace when its successor does not start with whitespace. -/
def fixSpacing : List Str → List Str
  | [] => []
  | [w] => [w]
  | w :: w2 :: rest =>
    (if !endsWs w && !startsWs w2 then w ++ [' '] else w) :: fixSpacing (w2 :: rest)

/-- Reassembler: cleanup, spacing fix, and join, exactly the tail of
`applySemanticEdit` in the source. -/
def reassembleCode (toks : List Str) : Str :=
  (fixSpacing (cleanupToks toks false)).flatten

/-- Editor state: current text plus the linear edit history and cursor. -/
structure EditorState where
  text : Str
  editHistory : List Str
  historyIndex : Nat
deriving DecidableEq, Repr

/-- Initial session state, seeded with the initial text. -/
def initState (t : Str) : EditorState := ⟨t, [t], 0⟩

/-- Push a freshly produced text: truncate redo entries past the cursor,
append, and point the cursor at the new entry. -/
def pushHistory (s : EditorState) (newText : Str) : EditorState :=
  let newHistory := s.editHistory.take (s.historyIndex + 1) ++ [newText]
  ⟨newText, newHistory, newHistory.length - 1⟩

/-- Targeted semantic edit, the model of `applySemanticEdit`. -/
def applySemanticEdit (s : EditorState) (wordIndex : Nat) (newContent : Str) :
    EditorState :=
  if (trimStr newContent).isEmpty then s
  else
    let words := tokenize s.text
    let structuredWords := buildStructured words 0
    match structuredWords.find? (fun w => w.index = wordIndex) with
    | none => s
    | some targetWordObj =>
      let newContentLower := lowerStr (trimStr newContent)
      let newType := classifyNewContent newContentLower
      let phraseMembers := findPhraseMembers structuredWords targetWordObj
      let rules := applyRules words phraseMembers targetWordObj.wtype newType
        newContentLower newContent
      let newWords := rules.1.set wordIndex rules.2
      pushHistory s (reassembleCode newWords)

/-- Pure dictation append, the model of `appendDictation`. -/
def appendDictation (s : EditorState) (transcript : Str) : EditorState :=
  if (trimStr transcript).isEmpty then s
  else
    let needsSpace := !(trimStr s.text).isEmpty && !endsWs s.text
    let pfx : Str := if needsSpace then [' '] else []
    pushHistory s (s.text ++ pfx ++ trimStr transcript)

/-- Collapse every whitespace run to a single space, the model of
`.replace(/\s+/g, " ")`; the flag records whether the previous character
belonged to a run already collapsed. -/
def collapseWsAux : Bool → Str → Str
  | _, [] => []
  | inWs, c :: rest =>
    if isWs c then
      if inWs then collapseWsAux true rest else ' ' :: collapseWsAux true rest
    else c :: collapseWsAux false rest

/-- Collapse whitespace runs in a string. -/
def collapseWs (l : Str) : Str := collapseWsAux false l

/-- Keep-filter of the delete-word handler: keep non-blank words, drop the
emptied entry, and keep a whitespace run only when non-blank entries exist
on both sides of it in the full array. -/
def keepTok (nw : List Str) (i : Nat) (w : Str) : Bool :=
  if !(trimStr w).isEmpty then true
  else if w.isEmpty then false
  else (nw.take i).any (fun x => !(trimStr x).isEmpty) &&
    (nw.drop (i + 1)).any (fun x => !(trimStr x).isEmpty)

/-- Index-aware filter, the model of `Array.prototype.filter((w, i) => …)`. -/
def filterIdxAux (f : Nat → Str → Bool) : Nat → List Str → List Str
  | _, [] => []
  | k, w :: rest =>
    if f k w then w :: filterIdxAux f (k + 1) rest else filterIdxAux f (k + 1) rest

/-- Delete-word edit path: blank the clicked token, filter, join, then
normalize all whitespace and trim.  Clicking a whitespace run or a
non-existing index does nothing. -/
def deleteWord (s : EditorState) (index : Nat) : EditorState :=
  match (tokenize s.text).get? index with
  | none => s
  | some w =>
    if (trimStr w).isEmpty then s
    else
      let newWords := (tokenize s.text).set index []
      let cleanedWords := filterIdxAux (fun i x => keepTok newWords i x) 0 newWords
      pushHistory s (trimStr (collapseWs cleanedWords.flatten))

/-- Undo: move the cursor back one entry when possible. -/
def undo (s : EditorState) : EditorState :=
  if 0 < s.historyIndex then
    { s with
      historyIndex := s.historyIndex - 1
      text := s.editHistory.getD (s.historyIndex - 1) [] }
  else s

/-- Redo: move the cursor forward one entry when possible. -/
def redo (s : EditorState) : EditorState :=
  if s.historyIndex < s.editHistory.length - 1 then
    { s with
      historyIndex := s.historyIndex + 1
      text := s.editHistory.getD (s.historyIndex + 1) [] }
  else s

/-- One engine invocation: targeted edit, dictation append, delete-word,
undo, or redo. -/
inductive EngineOp where
  | sem (wordIndex : Nat) (newContent : Str)
  | dict (transcript : Str)
  | del (index : Nat)
  | undoOp
  | redoOp
deriving DecidableEq, Repr

/-- Dispatch one operation. -/
def applyOp (s : EditorState) : EngineOp → EditorState
  | .sem i c => applySemanticEdit s i c
  | .dict c => appendDictation s c
  | .del i => deleteWord s i
  | .undoOp => undo s
  | .redoOp => redo s

/-- Run a sequence of engine operations. -/
def runOps (s : EditorState) : List EngineOp → EditorState
  | [] => s
  | op :: rest => runOps (applyOp s op) rest

/-- Well-formed editor state: the cursor is a valid history position and
the current text is the entry under the cursor. -/
def WFState (s : EditorState) : Prop :=
  s.historyIndex < s.editHistory.length ∧
  s.editHistory.getD s.historyIndex [] = s.text

/-- Structured-word list with four prepositions before a day target, used
to exercise the scan-distance cap. -/
def swEx : List SWord :=
  [⟨0, str "at", .preposition⟩, ⟨2, str "at", .preposition⟩,
   ⟨4, str "at", .preposition⟩, ⟨6, str "at", .preposition⟩,
   ⟨8, str "monday", .day⟩]

/-- The day target of `swEx`. -/
def tgtEx : SWord := ⟨8, str "monday", .day⟩

/-- Whether a token contains any word character, the code's test
`w.trim() !== ""`. -/
def hasWord (t : Str) : Bool := !(trimStr t).isEmpty

/-- Join a list of words with single spaces. -/
def spaceJoin : List Str → Str
  | [] => []
  | [w] => w
  | w :: w2 :: rest => w ++ ' ' :: spaceJoin (w2 :: rest)

/-- Token-level view of whitespace collapsing: a maximal group of
whitespace tokens becomes one space and word tokens pass through. -/
def squashToks : Bool → List Str → Str
  | _, [] => []
  | inWs, t :: rest =>
    if t.all isWs then
      if inWs then squashToks true rest else ' ' :: squashToks true rest
    else t ++ squashToks false rest

/-- Recursive form of the delete-word keep-filter: keep word tokens, drop
empty entries, and keep a whitespace run only when a word was already
kept and another word follows. -/
def delFilter : Bool → List Str → List Str
  | _, [] => []
  | seen, w :: rest =>
    if hasWord w then w :: delFilter true rest
    else if w.isEmpty then delFilter seen rest
    else if seen && rest.any (fun x => hasWord x) then w :: delFilter seen rest
    else delFilter seen rest

/-- Trailing-whitespace trim. -/
def trimRight (l : Str) : Str := (l.reverse.dropWhile isWs).reverse

/-- A token that is wholly whitespace or wholly non-whitespace. -/
def homogTok (t : Str) : Prop :=
  t.all isWs = true ∨ t.all (fun c => !isWs c) = true

/-- Adjacent-token separation: not both tokens contain word characters. -/
def sepToks (a b : Str) : Prop := hasWord a = false ∨ hasWord b = false

/-- No two adjacent space characters anywhere in the string. -/
def noDbl : Str → Bool
  | c1 :: c2 :: rest => !(c1 == ' ' && c2 == ' ') && noDbl (c2 :: rest)
  | _ => true

/-- Contents that cannot by themselves smuggle a double space into the
document: targeted-edit content must carry no edge whitespace and no
double space, dictation content no double space; the remaining
operations take no content. -/
def cleanOp : EngineOp → Bool
  | .sem _ c => !startsWs c && !endsWs c && noDbl c
  | .dict c => noDbl c
  | _ => true

/-- A token shape that reassembly keeps free of double spaces: empty, a
whitespace run without adjacent spaces, or word-like content with
whitespace-free edges and no adjacent spaces. -/
def goodTok (t : Str) : Prop :=
  t = [] ∨ (t.all isWs = true ∧ noDbl t = true) ∨
    (t ≠ [] ∧ startsWs t = false ∧ endsWs t = false ∧ noDbl t = true)

/-- Invariant: the current text and every history entry are free of
double spaces. -/
def noDblState (s : EditorState) : Prop :=
  noDbl s.text = true ∧ ∀ e ∈ s.editHistory, noDbl e = true

-- ===================================================================
-- Theorems
-- ===================================================================

theorem dropWhile_append_of_all (p : Char → Bool) (a z : Str)
    (h : ∀ c ∈ a, p c = true) : (a ++ z).dropWhile p = z.dropWhile p := by
  induction a with
  | nil => rfl
  | cons c a ih =>
    have hc := h c (List.mem_cons_self c a)
    simp only [List.cons_append, List.dropWhile_cons, hc, if_true]
    exact ih (fun x hx => h x (List.mem_cons_of_mem c hx))

theorem dropWhile_append_of_ne (p : Char → Bool) (a z : Str)
    (h : a.dropWhile p ≠ []) : (a ++ z).dropWhile p = a.dropWhile p ++ z := by
  induction a with
  | nil => exact absurd rfl h
  | cons c a ih =>
    by_cases hc : p c = true
    · simp only [List.dropWhile_cons, hc, if_true] at h ⊢
      simp only [List.cons_append, List.dropWhile_cons, hc, if_true]
      exact ih h
    · rw [Bool.not_eq_true] at hc
      simp only [List.cons_append, List.dropWhile_cons, hc]
      simp only [Bool.false_eq_true, if_false, List.cons_append]

theorem dropWhile_eq_self_of_all (p : Char → Bool) (z : Str)
    (h : ∀ c ∈ z, p c = false) : z.dropWhile p = z := by
  cases z with
  | nil => rfl
  | cons c z =>
    have hc := h c (List.mem_cons_self c z)
    simp [List.dropWhile_cons, hc]

theorem trimRight_eq_nil_iff (l : Str) : trimRight l = [] ↔ l.all isWs = true := by
  unfold trimRight
  rw [List.reverse_eq_nil_iff, List.dropWhile_eq_nil_iff]
  simp [List.all_eq_true]

theorem trimStr_isEmpty_iff (t : Str) :
    (trimStr t).isEmpty = true ↔ t.all isWs = true := by
  rw [List.isEmpty_iff]
  show trimRight (t.dropWhile isWs) = [] ↔ _
  rw [trimRight_eq_nil_iff]
  constructor
  · intro h
    have hsplit := List.takeWhile_append_dropWhile (p := isWs) (l := t)
    rw [← hsplit, List.all_append, h, Bool.and_true]
    rw [List.all_eq_true]
    intro x hx
    exact List.mem_takeWhile_imp hx
  · intro h
    rw [List.all_eq_true] at h ⊢
    intro x hx
    exact h x (List.dropWhile_sublist (p := isWs) (l := t) |>.mem hx)

theorem hasWord_eq_not_all_ws (t : Str) : hasWord t = !t.all isWs := by
  unfold hasWord
  by_cases h : (trimStr t).isEmpty = true
  · rw [h, (trimStr_isEmpty_iff t).mp h]
  · rw [Bool.not_eq_true] at h
    rw [h]
    have hna : ¬t.all isWs = true := fun hc => by
      rw [(trimStr_isEmpty_iff t).mpr hc] at h
      exact Bool.noConfusion h
    rw [Bool.not_eq_true] at hna
    rw [hna]

theorem collapseWsAux_ws_append_true (a x : Str) (ha : a.all isWs = true) :
    collapseWsAux true (a ++ x) = collapseWsAux true x := by
  induction a with
  | nil => rfl
  | cons c a ih =>
    rw [List.all_cons, Bool.and_eq_true] at ha
    simp only [List.cons_append, collapseWsAux, ha.1, if_true]
    exact ih ha.2

theorem collapseWsAux_ws_append_false (a x : Str) (ha : a.all isWs = true)
    (hne : a ≠ []) :
    collapseWsAux false (a ++ x) = ' ' :: collapseWsAux true x := by
  cases a with
  | nil => exact absurd rfl hne
  | cons c a =>
    rw [List.all_cons, Bool.and_eq_true] at ha
    simp only [List.cons_append, collapseWsAux, ha.1, if_true, List.append_eq,
      Bool.false_eq_true, if_false]
    rw [collapseWsAux_ws_append_true a x ha.2]

theorem collapseWsAux_word_append (a x : Str)
    (ha : a.all (fun c => !isWs c) = true) :
    ∀ b, (a = [] → b = false) →
      collapseWsAux b (a ++ x) = a ++ collapseWsAux false x := by
  induction a with
  | nil => intro b hb; rw [hb rfl]; rfl
  | cons c a ih =>
    intro b _
    rw [List.all_cons, Bool.and_eq_true] at ha
    have hc : isWs c = false := by
      have := ha.1
      rwa [Bool.not_eq_true'] at this
    simp only [List.cons_append, collapseWsAux, hc, Bool.false_eq_true, if_false,
      List.append_eq]
    rw [ih ha.2 false (fun _ => rfl)]

theorem collapse_flatten_eq_squash (K : List Str)
    (h : ∀ t ∈ K, t ≠ [] ∧ (t.all isWs = true ∨ t.all (fun c => !isWs c) = true)) :
    ∀ b, collapseWsAux b K.flatten = squashToks b K := by
  induction K with
  | nil => intro b; rfl
  | cons t K ih =>
    intro b
    obtain ⟨hne, hhom⟩ := h t (List.mem_cons_self t K)
    have hK : ∀ u ∈ K, u ≠ [] ∧ (u.all isWs = true ∨ u.all (fun c => !isWs c) = true) :=
      fun u hu => h u (List.mem_cons_of_mem t hu)
    rw [List.flatten_cons]
    rcases hhom with hws | hword
    · rw [squashToks, if_pos hws]
      cases b with
      | true =>
        rw [collapseWsAux_ws_append_true t K.flatten hws, ih hK true, if_pos rfl]
      | false =>
        rw [collapseWsAux_ws_append_false t K.flatten hws hne, ih hK true,
          if_neg (by simp)]
    · have hnws : ¬t.all isWs = true := by
        cases t with
        | nil => exact absurd rfl hne
        | cons c t =>
          rw [List.all_cons, Bool.and_eq_true] at hword
          intro hcontra
          rw [List.all_cons, Bool.and_eq_true] at hcontra
          rw [hcontra.1] at hword
          exact Bool.noConfusion hword.1
      rw [squashToks, if_neg hnws]
      rw [collapseWsAux_word_append t K.flatten hword b (fun habs => absurd habs hne)]
      rw [ih hK false]

theorem trimL_squash_eq (K : List Str) :
    ∀ b, (squashToks b K).dropWhile isWs = (squashToks true K).dropWhile isWs := by
  intro b
  cases b with
  | true => rfl
  | false =>
    cases K with
    | nil => rfl
    | cons t K =>
      rw [squashToks, squashToks]
      by_cases hws : t.all isWs = true
      · rw [if_pos hws, if_pos hws, if_pos rfl, if_neg (by simp)]
        rw [List.dropWhile_cons]
        simp [isWs]
      · rw [if_neg hws, if_neg hws]

theorem squash_true_head_not_ws (K : List Str)
    (h : ∀ t ∈ K, t ≠ [] ∧ (t.all isWs = true ∨ t.all (fun c => !isWs c) = true)) :
    ∀ c ∈ (squashToks true K).head?, isWs c = false := by
  induction K with
  | nil => intro c hc; simp [squashToks] at hc
  | cons t K ih =>
    obtain ⟨hne, hhom⟩ := h t (List.mem_cons_self t K)
    have hK : ∀ u ∈ K, u ≠ [] ∧ (u.all isWs = true ∨ u.all (fun c => !isWs c) = true) :=
      fun u hu => h u (List.mem_cons_of_mem t hu)
    intro c hc
    by_cases hws : t.all isWs = true
    · rw [squashToks, if_pos hws] at hc
      simp only [if_true] at hc
      exact ih hK c hc
    · rw [squashToks, if_neg hws] at hc
      cases t with
      | nil => exact absurd rfl hne
      | cons d t =>
        rcases hhom with hws2 | hword
        · exact absurd hws2 hws
        · rw [List.all_cons, Bool.and_eq_true] at hword
          simp only [List.cons_append, List.head?_cons, Option.mem_def,
            Option.some.injEq] at hc
          rw [← hc]
          have := hword.1
          rwa [Bool.not_eq_true'] at this

theorem dropWhile_eq_self_of_head (l : Str)
    (h : ∀ c ∈ l.head?, isWs c = false) : l.dropWhile isWs = l := by
  cases l with
  | nil => rfl
  | cons c l =>
    have hc := h c rfl
    simp [List.dropWhile_cons, hc]

theorem trimStr_squash (K : List Str)
    (h : ∀ t ∈ K, t ≠ [] ∧ (t.all isWs = true ∨ t.all (fun c => !isWs c) = true)) :
    ∀ b, trimStr (squashToks b K) = trimRight (squashToks true K) := by
  intro b
  show trimRight ((squashToks b K).dropWhile isWs) = _
  rw [trimL_squash_eq K b, dropWhile_eq_self_of_head _ (squash_true_head_not_ws K h)]

theorem trimRight_append_ws (x y : Str) (hy : y.all isWs = true) :
    trimRight (x ++ y) = trimRight x := by
  unfold trimRight
  rw [List.reverse_append]
  rw [dropWhile_append_of_all isWs y.reverse x.reverse]
  intro c hc
  rw [List.all_eq_true] at hy
  exact hy c (List.mem_reverse.mp hc)

theorem trimRight_append_word (x y : Str) (hy : trimRight y ≠ []) :
    trimRight (x ++ y) = x ++ trimRight y := by
  have hne : y.reverse.dropWhile isWs ≠ [] := by
    intro hc
    apply hy
    unfold trimRight
    rw [hc]
    rfl
  unfold trimRight
  rw [List.reverse_append, dropWhile_append_of_ne isWs y.reverse x.reverse hne,
    List.reverse_append, List.reverse_reverse]

theorem trimRight_of_all_nonws (t : Str) (h : t.all (fun c => !isWs c) = true) :
    trimRight t = t := by
  unfold trimRight
  rw [dropWhile_eq_self_of_all isWs t.reverse, List.reverse_reverse]
  intro c hc
  rw [List.all_eq_true] at h
  have := h c (List.mem_reverse.mp hc)
  rwa [Bool.not_eq_true'] at this

theorem spaceJoin_cons_of_ne (w : Str) (K : List Str) (h : K ≠ []) :
    spaceJoin (w :: K) = w ++ ' ' :: spaceJoin K := by
  cases K with
  | nil => exact absurd rfl h
  | cons w2 K => rfl

theorem spaceJoin_ne_nil (K : List Str) (hne : K ≠ []) (h : ∀ t ∈ K, t ≠ []) :
    spaceJoin K ≠ [] := by
  cases K with
  | nil => exact absurd rfl hne
  | cons w K =>
    cases K with
    | nil => exact h w (List.mem_cons_self w [])
    | cons w2 K2 =>
      rw [spaceJoin]
      intro hc
      rcases List.append_eq_nil.mp hc with ⟨_, h2⟩
      exact List.cons_ne_nil _ _ h2

theorem tokenize_flatten (l : Str) : (tokenize l).flatten = l := by
  induction l with
  | nil => rfl
  | cons c rest ih =>
    rw [tokenize]
    cases h : tokenize rest with
    | nil =>
      rw [h] at ih
      simp only [List.flatten_nil] at ih
      simp [← ih]
    | cons r rs =>
      rw [h] at ih
      cases r with
      | nil =>
        simp only [List.flatten_cons, List.nil_append] at ih
        simp [List.flatten_cons, ih]
      | cons d ds =>
        by_cases hcd : (isWs c == isWs d) = true
        · simp only [hcd, if_true]
          simp only [List.flatten_cons, List.cons_append] at ih ⊢
          rw [ih]
        · simp only [hcd, Bool.false_eq_true, if_false]
          simp only [List.flatten_cons, List.cons_append, List.nil_append] at ih ⊢
          rw [ih]

theorem tokenize_toks (l : Str) :
    ∀ t ∈ tokenize l, t ≠ [] ∧ (t.all isWs = true ∨ t.all (fun c => !isWs c) = true) := by
  induction l with
  | nil => intro t ht; simp [tokenize] at ht
  | cons c rest ih =>
    have hsingle : ([c] : Str) ≠ [] ∧
        (([c] : Str).all isWs = true ∨ ([c] : Str).all (fun x => !isWs x) = true) := by
      refine ⟨List.cons_ne_nil c [], ?_⟩
      cases hc : isWs c
      · right; simp [hc]
      · left; simp [hc]
    intro t ht
    rw [tokenize] at ht
    cases h : tokenize rest with
    | nil =>
      rw [h] at ht
      dsimp only at ht
      rcases List.mem_singleton.mp ht with rfl
      exact hsingle
    | cons r rs =>
      rw [h] at ht
      cases r with
      | nil =>
        dsimp only at ht
        rcases List.mem_cons.mp ht with rfl | hmem
        · exact hsingle
        · exact ih t (by rw [h]; exact List.mem_cons_of_mem [] hmem)
      | cons d ds =>
        dsimp only at ht
        by_cases hcd : (isWs c == isWs d) = true
        · rw [if_pos hcd] at ht
          rcases List.mem_cons.mp ht with rfl | hmem
          · have hdds := ih (d :: ds) (by rw [h]; exact List.mem_cons_self (d :: ds) rs)
            refine ⟨List.cons_ne_nil _ _, ?_⟩
            rw [beq_iff_eq] at hcd
            rcases hdds.2 with hws | hword
            · left
              rw [List.all_cons, hws, Bool.and_true]
              rw [List.all_cons, Bool.and_eq_true] at hws
              rw [hcd]
              exact hws.1
            · right
              rw [List.all_cons, hword, Bool.and_true]
              rw [List.all_cons, Bool.and_eq_true] at hword
              rw [Bool.not_eq_true', hcd]
              have := hword.1
              rwa [Bool.not_eq_true'] at this
          · exact ih t (by rw [h]; exact List.mem_cons_of_mem (d :: ds) hmem)
        · rw [if_neg hcd] at ht
          rcases List.mem_cons.mp ht with rfl | hmem
          · exact hsingle
          · exact ih t (by rw [h]; exact hmem)

theorem tokenize_chain (l : Str) :
    List.Chain' (fun a b : Str => a.all isWs ≠ b.all isWs) (tokenize l) := by
  induction l with
  | nil => simp [tokenize]
  | cons c rest ih =>
    rw [tokenize]
    cases h : tokenize rest with
    | nil => simp
    | cons r rs =>
      rw [h] at ih
      cases r with
      | nil =>
        exfalso
        exact (tokenize_toks rest [] (by rw [h]; exact List.mem_cons_self _ _)).1 rfl
      | cons d ds =>
        dsimp only
        by_cases hcd : (isWs c == isWs d) = true
        · rw [if_pos hcd]
          rw [beq_iff_eq] at hcd
          have hall : (c :: d :: ds).all isWs = (d :: ds).all isWs := by
            rw [List.all_cons, List.all_cons, hcd]
            cases hd : isWs d <;> simp
          rw [List.chain'_cons'] at ih ⊢
          refine ⟨?_, ih.2⟩
          intro b hb
          rw [hall]
          exact ih.1 b hb
        · rw [if_neg hcd]
          rw [List.chain'_cons]
          refine ⟨?_, ih⟩
          have hdds := tokenize_toks rest (d :: ds) (by rw [h]; exact List.mem_cons_self _ _)
          rw [beq_iff_eq] at hcd
          cases hd : isWs d with
          | true =>
            have hws : (d :: ds).all isWs = true := by
              rcases hdds.2 with hws | hword
              · exact hws
              · rw [List.all_cons, Bool.and_eq_true] at hword
                rw [hd] at hword
                simp at hword
            have hc : isWs c = false := by
              cases hc2 : isWs c
              · rfl
              · rw [hc2, hd] at hcd; exact absurd rfl hcd
            rw [hws]
            simp [hc]
          | false =>
            have hws : (d :: ds).all isWs = false := by
              rw [List.all_cons, hd, Bool.false_and]
            have hc : isWs c = true := by
              cases hc2 : isWs c
              · rw [hc2, hd] at hcd; exact absurd rfl hcd
              · rfl
            rw [hws]
            simp [hc]

theorem cleanupToks_sublist (L : List Str) : ∀ b, List.Sublist (cleanupToks L b) L := by
  induction L with
  | nil => intro b; exact List.Sublist.refl []
  | cons w rest ih =>
    intro b
    rw [cleanupToks]
    by_cases h1 : w.isEmpty = true
    · rw [if_pos h1]
      exact (ih b).cons w
    · rw [if_neg h1]
      by_cases h2 : (w.all isWs && b) = true
      · rw [if_pos h2]
        exact (ih b).cons w
      · rw [if_neg h2]
        exact (ih (w.all isWs)).cons₂ w

theorem delFilter_sublist (L : List Str) : ∀ seen, List.Sublist (delFilter seen L) L := by
  induction L with
  | nil => intro seen; exact List.Sublist.refl []
  | cons w rest ih =>
    intro seen
    rw [delFilter]
    by_cases h1 : hasWord w = true
    · rw [if_pos h1]
      exact (ih true).cons₂ w
    · rw [if_neg h1]
      by_cases h2 : w.isEmpty = true
      · rw [if_pos h2]
        exact (ih seen).cons w
      · rw [if_neg h2]
        by_cases h3 : (seen && rest.any (fun x => hasWord x)) = true
        · rw [if_pos h3]
          exact (ih seen).cons₂ w
        · rw [if_neg h3]
          exact (ih seen).cons w

theorem cleanupToks_filter_empties (L : List Str) :
    ∀ b, cleanupToks L b = cleanupToks (L.filter (fun t => !t.isEmpty)) b := by
  induction L with
  | nil => intro b; rfl
  | cons w rest ih =>
    intro b
    by_cases h1 : w.isEmpty = true
    · rw [cleanupToks, if_pos h1, List.filter_cons_of_neg (by simp [h1]), ih b]
    · rw [cleanupToks, if_neg h1, List.filter_cons_of_pos (by simp [h1]),
        cleanupToks, if_neg h1]
      by_cases h2 : (w.all isWs && b) = true
      · rw [if_pos h2, if_pos h2, ih b]
      · rw [if_neg h2, if_neg h2, ih (w.all isWs)]

theorem any_hasWord_filter_empties (L : List Str) :
    (L.filter (fun t => !t.isEmpty)).any (fun x => hasWord x) =
      L.any (fun x => hasWord x) := by
  induction L with
  | nil => rfl
  | cons w rest ih =>
    by_cases h1 : w.isEmpty = true
    · have hw : w = [] := List.isEmpty_iff.mp h1
      rw [List.filter_cons_of_neg (by simp [h1]), List.any_cons, ih, hw]
      show _ = (hasWord [] || _)
      rw [show hasWord [] = false from rfl, Bool.false_or]
    · rw [List.filter_cons_of_pos (by simp [h1]), List.any_cons, List.any_cons, ih]

theorem delFilter_filter_empties (L : List Str) :
    ∀ seen, delFilter seen L = delFilter seen (L.filter (fun t => !t.isEmpty)) := by
  induction L with
  | nil => intro seen; rfl
  | cons w rest ih =>
    intro seen
    by_cases h2 : w.isEmpty = true
    · have h1 : hasWord w = false := by
        rw [List.isEmpty_iff.mp h2]
        rfl
      rw [delFilter, if_neg (by rw [h1]; exact Bool.false_ne_true), if_pos h2,
        List.filter_cons_of_neg (by simp [h2]), ih seen]
    · rw [delFilter, List.filter_cons_of_pos (by simp [h2]), delFilter]
      by_cases h1 : hasWord w = true
      · rw [if_pos h1, if_pos h1, ih true]
      · rw [if_neg h1, if_neg h1, if_neg h2, if_neg h2,
          any_hasWord_filter_empties rest]
        by_cases h3 : (seen && rest.any (fun x => hasWord x)) = true
        · rw [if_pos h3, if_pos h3, ih seen]
        · rw [if_neg h3, if_neg h3, ih seen]

theorem delFilter_of_no_word (M : List Str)
    (h : ∀ t ∈ M, hasWord t = false) : ∀ seen, delFilter seen M = [] := by
  induction M with
  | nil => intro seen; rfl
  | cons w rest ih =>
    intro seen
    have hw := h w (List.mem_cons_self w rest)
    have hrest : ∀ t ∈ rest, hasWord t = false :=
      fun t ht => h t (List.mem_cons_of_mem w ht)
    have hany : rest.any (fun x => hasWord x) = false := by
      rw [List.any_eq_false]
      intro x hx
      rw [hrest x hx]
      exact Bool.false_ne_true
    rw [delFilter, if_neg (by rw [hw]; exact Bool.false_ne_true)]
    by_cases h2 : w.isEmpty = true
    · rw [if_pos h2]
      exact ih hrest seen
    · rw [if_neg h2, if_neg (by rw [hany, Bool.and_false]; exact Bool.false_ne_true)]
      exact ih hrest seen

theorem squash_all_ws (K : List Str) (h : ∀ t ∈ K, t.all isWs = true) :
    ∀ b, (squashToks b K).all isWs = true := by
  induction K with
  | nil => intro b; rfl
  | cons t K ih =>
    intro b
    have ht := h t (List.mem_cons_self t K)
    have hK : ∀ u ∈ K, u.all isWs = true := fun u hu => h u (List.mem_cons_of_mem t hu)
    rw [squashToks, if_pos ht]
    cases b with
    | true =>
      rw [if_pos rfl]
      exact ih hK true
    | false =>
      rw [if_neg (by simp)]
      rw [List.all_cons]
      rw [ih hK true]
      rfl

theorem hasWord_false_all_ws (t : Str) (h : hasWord t = false) :
    t.all isWs = true := by
  rw [hasWord_eq_not_all_ws] at h
  cases hall : t.all isWs
  · rw [hall] at h
    exact absurd h (by simp)
  · rfl

theorem hasWord_true_all_nonws (t : Str)
    (hhom : t.all isWs = true ∨ t.all (fun c => !isWs c) = true)
    (h : hasWord t = true) : t.all (fun c => !isWs c) = true := by
  rw [hasWord_eq_not_all_ws] at h
  rcases hhom with hws | hword
  · rw [hws] at h
    exact absurd h (by simp)
  · exact hword

theorem isEmpty_false_of_ne (t : Str) (h : t ≠ []) : t.isEmpty = false := by
  cases he : t.isEmpty
  · rfl
  · exact absurd (List.isEmpty_iff.mp he) h

theorem trimRight_squash_delFilter (M : List Str)
    (h : ∀ t ∈ M, t ≠ [] ∧ (t.all isWs = true ∨ t.all (fun c => !isWs c) = true))
    (hchain : List.Chain' sepToks M) :
    ∀ seen, trimRight (squashToks true (delFilter seen M)) =
      spaceJoin (M.filter (fun t => hasWord t)) := by
  induction M with
  | nil => intro seen; rfl
  | cons w rest ih =>
    intro seen
    obtain ⟨hne, hhom⟩ := h w (List.mem_cons_self w rest)
    have hrest : ∀ t ∈ rest, t ≠ [] ∧ (t.all isWs = true ∨ t.all (fun c => !isWs c) = true) :=
      fun t ht => h t (List.mem_cons_of_mem w ht)
    have hchainrest : List.Chain' sepToks rest := hchain.tail
    by_cases hw : hasWord w = true
    · -- `w` is a word token and is always kept.
      have hnws : ¬w.all isWs = true := by
        intro hc
        rw [hasWord_eq_not_all_ws, hc] at hw
        exact Bool.noConfusion hw
      rw [delFilter, if_pos hw, List.filter_cons_of_pos (by simpa using hw)]
      by_cases hrw : rest.filter (fun t => hasWord t) = []
      · have hnoword : ∀ t ∈ rest, hasWord t = false := by
          intro t ht
          cases hx : hasWord t
          · rfl
          · exfalso
            have : t ∈ rest.filter (fun t => hasWord t) :=
              List.mem_filter.mpr ⟨ht, by simpa using hx⟩
            rw [hrw] at this
            simp at this
        rw [delFilter_of_no_word rest hnoword true, hrw]
        rw [squashToks, if_neg hnws]
        show trimRight (w ++ squashToks false []) = spaceJoin [w]
        rw [show squashToks false [] = [] from rfl, List.append_nil]
        exact trimRight_of_all_nonws w (hasWord_true_all_nonws w hhom hw)
      · cases rest with
        | nil => exact absurd rfl hrw
        | cons t rest2 =>
          have hsep : sepToks w t := (List.chain'_cons.mp hchain).1
          have hwt : hasWord t = false := by
            rcases hsep with hs | hs
            · rw [hw] at hs
              exact Bool.noConfusion hs
            · exact hs
          have htws : t.all isWs = true := hasWord_false_all_ws t hwt
          have htne : t ≠ [] := (hrest t (List.mem_cons_self t rest2)).1
          have hany : rest2.any (fun x => hasWord x) = true := by
            rw [List.filter_cons_of_neg (by simp [hwt])] at hrw
            obtain ⟨x, hx⟩ := List.exists_mem_of_ne_nil _ hrw
            obtain ⟨hx1, hx2⟩ := List.mem_filter.mp hx
            exact List.any_eq_true.mpr ⟨x, hx1, hx2⟩
          have hdel : delFilter true (t :: rest2) = t :: delFilter true rest2 := by
            rw [delFilter, if_neg (by rw [hwt]; exact Bool.false_ne_true),
              if_neg (by rw [isEmpty_false_of_ne t htne]; exact Bool.false_ne_true),
              if_pos (by rw [hany]; rfl)]
          rw [hdel]
          rw [squashToks, if_neg hnws]
          rw [show squashToks false (t :: delFilter true rest2) =
            ' ' :: squashToks true (delFilter true rest2) by
              rw [squashToks, if_pos htws, if_neg (by simp)]]
          have hy := ih hrest hchainrest true
          rw [show squashToks true (delFilter true (t :: rest2)) =
            squashToks true (delFilter true rest2) by
              rw [hdel, squashToks, if_pos htws, if_pos rfl]] at hy
          have hwordsne : (t :: rest2).filter (fun x => hasWord x) ≠ [] := hrw
          have hjne : spaceJoin ((t :: rest2).filter (fun x => hasWord x)) ≠ [] := by
            refine spaceJoin_ne_nil _ hwordsne ?_
            intro u hu
            exact (hrest u (List.mem_filter.mp hu).1).1
          have htrne : trimRight (squashToks true (delFilter true rest2)) ≠ [] := by
            rw [hy]
            exact hjne
          have hstep : trimRight (' ' :: squashToks true (delFilter true rest2)) =
              ' ' :: trimRight (squashToks true (delFilter true rest2)) := by
            have := trimRight_append_word [' ']
              (squashToks true (delFilter true rest2)) htrne
            simpa using this
          rw [show (w ++ ' ' :: squashToks true (delFilter true rest2) : Str) =
            w ++ (' ' :: squashToks true (delFilter true rest2)) from rfl]
          rw [trimRight_append_word w _ (by rw [hstep]; exact List.cons_ne_nil _ _)]
          rw [hstep, hy]
          rw [spaceJoin_cons_of_ne w _ hwordsne]
    · -- `w` is a whitespace run: kept or dropped, it is absorbed.
      rw [Bool.not_eq_true] at hw
      have hws : w.all isWs = true := hasWord_false_all_ws w hw
      rw [delFilter, if_neg (by rw [hw]; exact Bool.false_ne_true),
        if_neg (by rw [isEmpty_false_of_ne w hne]; exact Bool.false_ne_true),
        List.filter_cons_of_neg (by simp [hw])]
      by_cases hkeep : (seen && rest.any (fun x => hasWord x)) = true
      · rw [if_pos hkeep]
        rw [squashToks, if_pos hws, if_pos rfl]
        exact ih hrest hchainrest seen
      · rw [if_neg hkeep]
        exact ih hrest hchainrest seen

theorem getLast?_mem_str (t : Str) (c : Char) (h : t.getLast? = some c) : c ∈ t := by
  induction t with
  | nil => simp at h
  | cons d t ih =>
    cases t with
    | nil =>
      simp only [List.getLast?_singleton, Option.some.injEq] at h
      rw [← h]
      exact List.mem_cons_self d []
    | cons e t2 =>
      rw [List.getLast?_cons_cons] at h
      exact List.mem_cons_of_mem d (ih h)

theorem endsWs_of_ws (t : Str) (hne : t ≠ []) (h : t.all isWs = true) :
    endsWs t = true := by
  unfold endsWs
  cases hl : t.getLast? with
  | none => exact absurd (List.getLast?_eq_none_iff.mp hl) hne
  | some c =>
    rw [List.all_eq_true] at h
    exact h c (getLast?_mem_str t c hl)

theorem endsWs_of_word (t : Str) (h : t.all (fun c => !isWs c) = true) :
    endsWs t = false := by
  unfold endsWs
  cases hl : t.getLast? with
  | none => rfl
  | some c =>
    rw [List.all_eq_true] at h
    have := h c (getLast?_mem_str t c hl)
    rwa [Bool.not_eq_true'] at this

theorem startsWs_of_ws (t : Str) (hne : t ≠ []) (h : t.all isWs = true) :
    startsWs t = true := by
  cases t with
  | nil => exact absurd rfl hne
  | cons c t =>
    rw [List.all_cons, Bool.and_eq_true] at h
    unfold startsWs
    exact h.1

theorem startsWs_of_word (t : Str) (h : t.all (fun c => !isWs c) = true) :
    startsWs t = false := by
  cases t with
  | nil => rfl
  | cons c t =>
    rw [List.all_cons, Bool.and_eq_true] at h
    unfold startsWs
    have := h.1
    rwa [Bool.not_eq_true'] at this

theorem fixSpacing_eq_self (L : List Str)
    (h : List.Chain' (fun a b : Str => endsWs a = true ∨ startsWs b = true) L) :
    fixSpacing L = L := by
  induction L with
  | nil => rfl
  | cons w rest ih =>
    cases rest with
    | nil => rfl
    | cons w2 rest2 =>
      rw [fixSpacing]
      obtain ⟨h1, h2⟩ := List.chain'_cons.mp h
      have hcond : (!endsWs w && !startsWs w2) = false := by
        rcases h1 with h1 | h1 <;> simp [h1]
      rw [hcond]
      simp only [Bool.false_eq_true, if_false]
      rw [ih h2]

theorem cleanup_chain_spacing (M : List Str)
    (h : ∀ t ∈ M, t ≠ [] ∧ (t.all isWs = true ∨ t.all (fun c => !isWs c) = true))
    (hchain : List.Chain' sepToks M) :
    ∀ prev, List.Chain' (fun a b : Str => endsWs a = true ∨ startsWs b = true)
      (cleanupToks M prev) := by
  induction M with
  | nil => intro prev; simp [cleanupToks]
  | cons w rest ih =>
    intro prev
    obtain ⟨hne, hhom⟩ := h w (List.mem_cons_self w rest)
    have hrest : ∀ t ∈ rest, t ≠ [] ∧
        (t.all isWs = true ∨ t.all (fun c => !isWs c) = true) :=
      fun t ht => h t (List.mem_cons_of_mem w ht)
    have hchainrest : List.Chain' sepToks rest := hchain.tail
    rw [cleanupToks,
      if_neg (by rw [isEmpty_false_of_ne w hne]; exact Bool.false_ne_true)]
    by_cases hws : w.all isWs = true
    · cases prev with
      | true =>
        rw [if_pos (by rw [hws]; rfl)]
        exact ih hrest hchainrest true
      | false =>
        rw [if_neg (by rw [Bool.and_false]; exact Bool.false_ne_true)]
        rw [List.chain'_cons']
        refine ⟨fun b _ => Or.inl (endsWs_of_ws w hne hws), ?_⟩
        rw [hws]
        exact ih hrest hchainrest true
    · have hword : w.all (fun c => !isWs c) = true := by
        rcases hhom with hc | hc
        · exact absurd hc hws
        · exact hc
      have hwsf : w.all isWs = false := by
        cases hx : w.all isWs
        · rfl
        · exact absurd hx hws
      rw [if_neg (by rw [hwsf, Bool.false_and]; exact Bool.false_ne_true), hwsf]
      cases rest with
      | nil => simp [cleanupToks]
      | cons t rest2 =>
        have hsept : sepToks w t := (List.chain'_cons.mp hchain).1
        have hwword : hasWord w = true := by
          rw [hasWord_eq_not_all_ws, hwsf]
          rfl
        have htnw : hasWord t = false := by
          rcases hsept with hs | hs
          · rw [hwword] at hs
            exact Bool.noConfusion hs
          · exact hs
        have htws : t.all isWs = true := hasWord_false_all_ws t htnw
        have htne : t ≠ [] := (hrest t (List.mem_cons_self t rest2)).1
        have hclean : cleanupToks (t :: rest2) false = t :: cleanupToks rest2 true := by
          rw [cleanupToks,
            if_neg (by rw [isEmpty_false_of_ne t htne]; exact Bool.false_ne_true),
            if_neg (by rw [Bool.and_false]; exact Bool.false_ne_true), htws]
        rw [hclean, List.chain'_cons]
        refine ⟨Or.inr (startsWs_of_ws t htne htws), ?_⟩
        rw [← hclean]
        exact ih hrest hchainrest false

theorem trimRight_squash_cleanup (M : List Str)
    (h : ∀ t ∈ M, t ≠ [] ∧ (t.all isWs = true ∨ t.all (fun c => !isWs c) = true))
    (hchain : List.Chain' sepToks M) :
    ∀ prev, trimRight (squashToks true (cleanupToks M prev)) =
      spaceJoin (M.filter (fun t => hasWord t)) := by
  induction M with
  | nil => intro prev; rfl
  | cons w rest ih =>
    intro prev
    obtain ⟨hne, hhom⟩ := h w (List.mem_cons_self w rest)
    have hrest : ∀ t ∈ rest, t ≠ [] ∧
        (t.all isWs = true ∨ t.all (fun c => !isWs c) = true) :=
      fun t ht => h t (List.mem_cons_of_mem w ht)
    have hchainrest : List.Chain' sepToks rest := hchain.tail
    rw [cleanupToks,
      if_neg (by rw [isEmpty_false_of_ne w hne]; exact Bool.false_ne_true)]
    by_cases hw : hasWord w = true
    · have hword : w.all (fun c => !isWs c) = true := hasWord_true_all_nonws w hhom hw
      have hwsf : w.all isWs = false := by
        cases hx : w.all isWs
        · rfl
        · rw [hasWord_eq_not_all_ws, hx] at hw
          exact Bool.noConfusion hw
      rw [if_neg (by rw [hwsf, Bool.false_and]; exact Bool.false_ne_true), hwsf,
        List.filter_cons_of_pos (by simpa using hw)]
      by_cases hrw : rest.filter (fun t => hasWord t) = []
      · have hnoword : ∀ t ∈ rest, hasWord t = false := by
          intro t ht
          cases hx : hasWord t
          · rfl
          · exfalso
            have : t ∈ rest.filter (fun t => hasWord t) :=
              List.mem_filter.mpr ⟨ht, by simpa using hx⟩
            rw [hrw] at this
            simp at this
        have hcleanws : ∀ t ∈ cleanupToks rest false, t.all isWs = true := by
          intro t ht
          have hmem : t ∈ rest := (cleanupToks_sublist rest false).mem ht
          exact hasWord_false_all_ws t (hnoword t hmem)
        rw [hrw]
        rw [squashToks, if_neg (by rw [hwsf]; exact Bool.false_ne_true)]
        rw [trimRight_append_ws w _ (squash_all_ws _ hcleanws false)]
        exact trimRight_of_all_nonws w hword
      · cases rest with
        | nil => exact absurd rfl hrw
        | cons t rest2 =>
          have hsept : sepToks w t := (List.chain'_cons.mp hchain).1
          have htnw : hasWord t = false := by
            rcases hsept with hs | hs
            · rw [hw] at hs
              exact Bool.noConfusion hs
            · exact hs
          have htws : t.all isWs = true := hasWord_false_all_ws t htnw
          have htne : t ≠ [] := (hrest t (List.mem_cons_self t rest2)).1
          have hclean : cleanupToks (t :: rest2) false = t :: cleanupToks rest2 true := by
            rw [cleanupToks,
              if_neg (by rw [isEmpty_false_of_ne t htne]; exact Bool.false_ne_true),
              if_neg (by rw [Bool.and_false]; exact Bool.false_ne_true), htws]
          rw [hclean]
          rw [squashToks, if_neg (by rw [hwsf]; exact Bool.false_ne_true)]
          rw [show squashToks false (t :: cleanupToks rest2 true) =
            ' ' :: squashToks true (cleanupToks rest2 true) by
              rw [squashToks, if_pos htws, if_neg (by simp)]]
          have hy := ih hrest hchainrest false
          rw [hclean] at hy
          rw [show squashToks true (t :: cleanupToks rest2 true) =
            squashToks true (cleanupToks rest2 true) by
              rw [squashToks, if_pos htws, if_pos rfl]] at hy
          have hwordsne : (t :: rest2).filter (fun x => hasWord x) ≠ [] := hrw
          have hjne : spaceJoin ((t :: rest2).filter (fun x => hasWord x)) ≠ [] := by
            refine spaceJoin_ne_nil _ hwordsne ?_
            intro u hu
            exact (hrest u (List.mem_filter.mp hu).1).1
          have htrne : trimRight (squashToks true (cleanupToks rest2 true)) ≠ [] := by
            rw [hy]
            exact hjne
          have hstep : trimRight (' ' :: squashToks true (cleanupToks rest2 true)) =
              ' ' :: trimRight (squashToks true (cleanupToks rest2 true)) := by
            have := trimRight_append_word [' ']
              (squashToks true (cleanupToks rest2 true)) htrne
            simpa using this
          rw [show (w ++ ' ' :: squashToks true (cleanupToks rest2 true) : Str) =
            w ++ (' ' :: squashToks true (cleanupToks rest2 true)) from rfl]
          rw [trimRight_append_word w _ (by rw [hstep]; exact List.cons_ne_nil _ _)]
          rw [hstep, hy]
          rw [spaceJoin_cons_of_ne w _ hwordsne]
    · rw [Bool.not_eq_true] at hw
      have hws : w.all isWs = true := hasWord_false_all_ws w hw
      rw [List.filter_cons_of_neg (by simp [hw])]
      cases prev with
      | true =>
        rw [if_pos (by rw [hws]; rfl)]
        exact ih hrest hchainrest true
      | false =>
        rw [if_neg (by rw [Bool.and_false]; exact Bool.false_ne_true), hws]
        rw [squashToks, if_pos hws, if_pos rfl]
        exact ih hrest hchainrest true

theorem filterIdx_eq_delFilter (nw : List Str) :
    ∀ rest, ∀ k, rest = nw.drop k →
      filterIdxAux (fun i x => keepTok nw i x) k rest =
        delFilter ((nw.take k).any (fun x => hasWord x)) rest := by
  intro rest
  induction rest with
  | nil => intro k _; rfl
  | cons w rest2 ih =>
    intro k hdrop
    have hget : nw[k]? = some w := by
      rw [← List.head?_drop, ← hdrop]
      rfl
    have hdrop2 : rest2 = nw.drop (k + 1) := by
      rw [← List.tail_drop, ← hdrop]
      rfl
    have htake : nw.take (k + 1) = nw.take k ++ [w] := by
      rw [List.take_succ, hget]
      rfl
    rw [filterIdxAux, delFilter]
    by_cases h1 : hasWord w = true
    · have hk : keepTok nw k w = true := by
        rw [keepTok, if_pos (show (!List.isEmpty (trimStr w)) = true from h1)]
      have hseen : (nw.take (k + 1)).any (fun x => hasWord x) = true := by
        rw [htake, List.any_append]
        simp [h1]
      rw [if_pos hk, if_pos h1, ih (k + 1) hdrop2, hseen]
    · have hwf : hasWord w = false := by
        cases hx : hasWord w
        · rfl
        · exact absurd hx h1
      have hseen : (nw.take (k + 1)).any (fun x => hasWord x) =
          (nw.take k).any (fun x => hasWord x) := by
        rw [htake, List.any_append]
        simp [hwf]
      by_cases he : w.isEmpty = true
      · have hk : keepTok nw k w = false := by
          rw [keepTok, if_neg (show ¬(!List.isEmpty (trimStr w)) = true from h1),
            if_pos he]
        rw [if_neg (by rw [hk]; exact Bool.false_ne_true), if_pos he,
          ih (k + 1) hdrop2, hseen, if_neg h1]
      · have hkeq : keepTok nw k w =
            ((nw.take k).any (fun x => hasWord x) &&
              (nw.drop (k + 1)).any (fun x => hasWord x)) := by
          rw [keepTok, if_neg (show ¬(!List.isEmpty (trimStr w)) = true from h1),
            if_neg he]
          rfl
        rw [if_neg h1, if_neg he]
        by_cases h3 : ((nw.take k).any (fun x => hasWord x) &&
            rest2.any (fun x => hasWord x)) = true
        · rw [if_pos (by rw [hkeq, ← hdrop2]; exact h3), if_pos h3,
            ih (k + 1) hdrop2, hseen]
        · rw [if_neg (by rw [hkeq, ← hdrop2]; exact h3), if_neg h3,
            ih (k + 1) hdrop2, hseen]

theorem hasWord_of_trim_ne (w : Str) (hw : (trimStr w).isEmpty = false) :
    hasWord w = true := by
  unfold hasWord
  rw [hw]
  rfl

theorem tokens_set_props (toks : List Str) (i : Nat) (w : Str)
    (hne : ∀ t ∈ toks, t ≠ [])
    (hhom : ∀ t ∈ toks, t.all isWs = true ∨ t.all (fun c => !isWs c) = true)
    (hchain : List.Chain' (fun a b : Str => a.all isWs ≠ b.all isWs) toks)
    (hget : toks.get? i = some w) (hw : hasWord w = true) :
    (∀ t ∈ (toks.set i []).filter (fun t => !t.isEmpty),
        t ≠ [] ∧ (t.all isWs = true ∨ t.all (fun c => !isWs c) = true)) ∧
    List.Chain' sepToks ((toks.set i []).filter (fun t => !t.isEmpty)) := by
  obtain ⟨hi, hgeti⟩ := List.get?_eq_some.mp hget
  have hset : toks.set i [] = toks.take i ++ [] :: toks.drop (i + 1) :=
    List.set_eq_take_cons_drop [] hi
  have hftake : (toks.take i).filter (fun t => !t.isEmpty) = toks.take i := by
    rw [List.filter_eq_self]
    intro t ht
    rw [isEmpty_false_of_ne t (hne t (List.mem_of_mem_take ht))]
    rfl
  have hfdrop : (toks.drop (i + 1)).filter (fun t => !t.isEmpty) = toks.drop (i + 1) := by
    rw [List.filter_eq_self]
    intro t ht
    rw [isEmpty_false_of_ne t (hne t (List.mem_of_mem_drop ht))]
    rfl
  have hfilter : (toks.set i []).filter (fun t => !t.isEmpty) =
      toks.take i ++ toks.drop (i + 1) := by
    rw [hset, List.filter_append, List.filter_cons_of_neg (by simp), hftake, hfdrop]
  have hsep_toks : List.Chain' sepToks toks := by
    refine hchain.imp ?_
    intro a b hab
    cases ha : a.all isWs with
    | true =>
      left
      rw [hasWord_eq_not_all_ws, ha]
      rfl
    | false =>
      right
      have hb : b.all isWs = true := by
        cases hb2 : b.all isWs
        · rw [ha, hb2] at hab
          exact absurd rfl hab
        · rfl
      rw [hasWord_eq_not_all_ws, hb]
      rfl
  constructor
  · intro t ht
    rw [hfilter] at ht
    have hmem : t ∈ toks := by
      rcases List.mem_append.mp ht with h | h
      · exact List.mem_of_mem_take h
      · exact List.mem_of_mem_drop h
    exact ⟨hne t hmem, hhom t hmem⟩
  · rw [hfilter]
    rw [List.chain'_append]
    refine ⟨?_, ?_, ?_⟩
    · exact hsep_toks.prefix (List.take_prefix i toks)
    · exact hsep_toks.suffix (List.drop_suffix (i + 1) toks)
    intro x _ y hy
    right
    rw [List.head?_drop] at hy
    obtain ⟨hi1, hgety⟩ := List.getElem?_eq_some_iff.mp hy
    have hrel := List.chain'_iff_get.mp hchain i (by omega)
    have hwv : toks.get ⟨i, hi⟩ = w := hgeti
    have hyv : toks.get ⟨i + 1, by omega⟩ = y := by
      simpa [List.get_eq_getElem] using hgety
    rw [hwv, hyv] at hrel
    have hwall : w.all isWs = false := by
      rw [hasWord_eq_not_all_ws] at hw
      cases hx : w.all isWs
      · rfl
      · rw [hx] at hw
        exact absurd hw (by simp)
    have hyall : y.all isWs = true := by
      cases hx : y.all isWs
      · rw [hwall, hx] at hrel
        exact absurd rfl hrel
      · rfl
    rw [hasWord_eq_not_all_ws, hyall]
    rfl

/-- C5 counterexample: deleting the word "b" from "a b" gives "a", while
reassembling the same token list with that token blanked (the §4.5 code
path) gives "a " with a trailing space — the delete handler additionally
collapses all whitespace and trims, so the two paths differ. -/
theorem C5_counterexample :
    (deleteWord (initState (str "a b")) 2).text = str "a" ∧
    reassembleCode ((tokenize (str "a b")).set 2 []) = str "a " ∧
    (str "a" : Str) ≠ str "a " := by decide

/-- C5 (amended): for every document text and every index of a
non-whitespace token, the delete-word operation produces the §4.5
reassembly of the token list with that token blanked, post-processed by
collapsing every whitespace run to one space and trimming both ends
(so untouched whitespace runs are normalized too, not left unchanged). -/
theorem C5_delete_is_normalized_reassembly (s : EditorState) (i : Nat) (w : Str)
    (hg : (tokenize s.text).get? i = some w)
    (hw : (trimStr w).isEmpty = false) :
    (deleteWord s i).text =
      trimStr (collapseWs (reassembleCode ((tokenize s.text).set i []))) := by
  have hword : hasWord w = true := hasWord_of_trim_ne w hw
  have htoksne : ∀ t ∈ tokenize s.text, t ≠ [] :=
    fun t ht => (tokenize_toks s.text t ht).1
  have htokshom : ∀ t ∈ tokenize s.text,
      t.all isWs = true ∨ t.all (fun c => !isWs c) = true :=
    fun t ht => (tokenize_toks s.text t ht).2
  obtain ⟨hM, hMchain⟩ := tokens_set_props (tokenize s.text) i w htoksne htokshom
    (tokenize_chain s.text) hg hword
  have hDtoks : ∀ t ∈ delFilter false
      (((tokenize s.text).set i []).filter (fun t => !t.isEmpty)),
      t ≠ [] ∧ (t.all isWs = true ∨ t.all (fun c => !isWs c) = true) :=
    fun t ht => hM t ((delFilter_sublist _ false).mem ht)
  have hCtoks : ∀ t ∈ cleanupToks
      (((tokenize s.text).set i []).filter (fun t => !t.isEmpty)) false,
      t ≠ [] ∧ (t.all isWs = true ∨ t.all (fun c => !isWs c) = true) :=
    fun t ht => hM t ((cleanupToks_sublist _ false).mem ht)
  unfold deleteWord
  rw [hg]
  dsimp only
  rw [if_neg (by rw [hw]; exact Bool.false_ne_true)]
  show trimStr (collapseWs (filterIdxAux _ 0 _).flatten) = _
  have hA := filterIdx_eq_delFilter ((tokenize s.text).set i [])
    ((tokenize s.text).set i []) 0 (List.drop_zero _).symm
  simp only [List.take_zero, List.any_nil] at hA
  rw [hA, delFilter_filter_empties]
  rw [reassembleCode, cleanupToks_filter_empties _ false,
    fixSpacing_eq_self _ (cleanup_chain_spacing _ hM hMchain false)]
  show trimStr (collapseWsAux false _) = trimStr (collapseWsAux false _)
  rw [collapse_flatten_eq_squash _ hDtoks false,
    collapse_flatten_eq_squash _ hCtoks false,
    trimStr_squash _ hDtoks false, trimStr_squash _ hCtoks false,
    trimRight_squash_delFilter _ hM hMchain false,
    trimRight_squash_cleanup _ hM hMchain false]

/-- C5 witness: a concrete delete of "me" out of "Meet me here". -/
theorem C5_delete_is_normalized_reassembly_witness :
    (deleteWord (initState (str "Meet me here")) 2).text =
      trimStr (collapseWs (reassembleCode
        ((tokenize (str "Meet me here")).set 2 []))) :=
  C5_delete_is_normalized_reassembly (initState (str "Meet me here")) 2
    (str "me") (by decide) (by decide)

theorem noDbl_tail (c : Char) (l : Str) (h : noDbl (c :: l) = true) :
    noDbl l = true := by
  cases l with
  | nil => rfl
  | cons c2 rest =>
    rw [noDbl, Bool.and_eq_true] at h
    exact h.2

theorem noDbl_cons_intro (c : Char) (l : Str) (hl : noDbl l = true)
    (h : c = ' ' → l.head? = some ' ' → False) : noDbl (c :: l) = true := by
  cases l with
  | nil => rfl
  | cons c2 rest =>
    rw [noDbl, Bool.and_eq_true]
    refine ⟨?_, hl⟩
    by_cases hc : c = ' '
    · by_cases hc2 : c2 = ' '
      · exact absurd (h hc (by rw [hc2, List.head?_cons])) id
      · simp [hc, hc2]
    · simp [hc]

theorem noDbl_append_intro (a : Str) :
    ∀ b, noDbl a = true → noDbl b = true →
      (a.getLast? = some ' ' → b.head? = some ' ' → False) →
      noDbl (a ++ b) = true := by
  induction a with
  | nil => intro b _ hb _; exact hb
  | cons c a ih =>
    intro b ha hb hj
    cases a with
    | nil =>
      apply noDbl_cons_intro c b hb
      intro hc hhead
      exact hj (by rw [List.getLast?_singleton, hc]) hhead
    | cons c2 a2 =>
      show noDbl (c :: c2 :: (a2 ++ b)) = true
      rw [noDbl, Bool.and_eq_true]
      constructor
      · rw [noDbl, Bool.and_eq_true] at ha
        exact ha.1
      · exact ih b (noDbl_tail c _ ha) hb
          (fun hl hh => hj (by rw [List.getLast?_cons_cons]; exact hl) hh)

theorem noDbl_append_left (a : Str) :
    ∀ b, noDbl (a ++ b) = true → noDbl a = true := by
  induction a with
  | nil => intro b _; rfl
  | cons c a2 ih =>
    intro b h
    cases a2 with
    | nil => rfl
    | cons c2 a3 =>
      have h2 : noDbl (c :: c2 :: (a3 ++ b)) = true := h
      rw [noDbl, Bool.and_eq_true] at h2
      rw [noDbl, Bool.and_eq_true]
      exact ⟨h2.1, ih b h2.2⟩

theorem noDbl_append_right (a : Str) :
    ∀ b, noDbl (a ++ b) = true → noDbl b = true := by
  induction a with
  | nil => intro b h; exact h
  | cons c a2 ih =>
    intro b h
    exact ih b (noDbl_tail c (a2 ++ b) h)

theorem noDbl_infix (t l : Str) (hinf : List.IsInfix t l) (h : noDbl l = true) :
    noDbl t = true := by
  obtain ⟨u, v, huv⟩ := hinf
  rw [← huv] at h
  have h2 : noDbl (u ++ t) = true := noDbl_append_left (u ++ t) v h
  exact noDbl_append_right u t h2

theorem noDbl_of_all_nonws (t : Str) (h : t.all (fun c => !isWs c) = true) :
    noDbl t = true := by
  induction t with
  | nil => rfl
  | cons c t2 ih =>
    rw [List.all_cons, Bool.and_eq_true] at h
    apply noDbl_cons_intro c t2 (ih h.2)
    intro hc _
    have hcc := h.1
    rw [hc] at hcc
    simp [isWs] at hcc

theorem startsWs_dropWhile_ws (l : Str) : startsWs (l.dropWhile isWs) = false := by
  induction l with
  | nil => rfl
  | cons c l2 ih =>
    rw [List.dropWhile_cons]
    by_cases hc : isWs c = true
    · rw [if_pos hc]
      exact ih
    · rw [if_neg hc]
      unfold startsWs
      simp only [List.head?_cons]
      cases hx : isWs c
      · rfl
      · exact absurd hx hc

theorem trimStr_prefix_dropWhile (l : Str) :
    List.IsPrefix (trimStr l) (l.dropWhile isWs) := by
  rw [← List.reverse_suffix]
  show List.IsSuffix (((l.dropWhile isWs).reverse.dropWhile isWs).reverse.reverse) _
  rw [List.reverse_reverse]
  exact List.dropWhile_suffix isWs

theorem startsWs_trimStr (l : Str) : startsWs (trimStr l) = false := by
  cases h : trimStr l with
  | nil => rfl
  | cons d rest =>
    obtain ⟨v, hv⟩ := trimStr_prefix_dropWhile l
    have hh : (l.dropWhile isWs).head? = some d := by
      rw [← hv, h, List.head?_append_of_ne_nil _ (List.cons_ne_nil d rest),
        List.head?_cons]
    have hws := startsWs_dropWhile_ws l
    unfold startsWs at hws
    rw [hh] at hws
    unfold startsWs
    rw [List.head?_cons]
    exact hws

theorem trimStr_within (l : Str) : List.IsInfix (trimStr l) l :=
  ((trimStr_prefix_dropWhile l).isInfix).trans (List.dropWhile_suffix isWs).isInfix

theorem collapse_head_true (l : Str) :
    ∀ d, (collapseWsAux true l).head? = some d → isWs d = false := by
  induction l with
  | nil => intro d h; simp [collapseWsAux] at h
  | cons c l2 ih =>
    intro d h
    rw [collapseWsAux] at h
    by_cases hc : isWs c = true
    · rw [if_pos hc, if_pos rfl] at h
      exact ih d h
    · rw [if_neg hc] at h
      simp only [List.head?_cons, Option.some.injEq] at h
      rw [← h]
      cases hx : isWs c
      · rfl
      · exact absurd hx hc

theorem noDbl_collapseAux (l : Str) : ∀ b, noDbl (collapseWsAux b l) = true := by
  induction l with
  | nil => intro b; rfl
  | cons c l2 ih =>
    intro b
    rw [collapseWsAux]
    by_cases hc : isWs c = true
    · cases b with
      | false =>
        rw [if_pos hc, if_neg (by simp)]
        apply noDbl_cons_intro ' ' _ (ih true)
        intro _ hh
        have := collapse_head_true l2 ' ' hh
        simp [isWs] at this
      | true =>
        rw [if_pos hc, if_pos rfl]
        exact ih true
    · rw [if_neg hc]
      apply noDbl_cons_intro c _ (ih false)
      intro hc2 _
      rw [hc2] at hc
      exact hc (by simp [isWs])

theorem noDbl_trim_collapse (l : Str) : noDbl (trimStr (collapseWs l)) = true :=
  noDbl_infix _ _ (trimStr_within _) (noDbl_collapseAux l false)

theorem goodTok_of_content (x : Str) (h1 : startsWs x = false)
    (h2 : endsWs x = false) (h3 : noDbl x = true) : goodTok x := by
  by_cases hx : x = []
  · exact Or.inl hx
  · exact Or.inr (Or.inr ⟨hx, h1, h2, h3⟩)

theorem goodTok_tokenize (l : Str) (hl : noDbl l = true) :
    ∀ t ∈ tokenize l, goodTok t := by
  intro t ht
  obtain ⟨hne, hhom⟩ := tokenize_toks l t ht
  have hinf : List.IsInfix t l := by
    have h2 := List.infix_of_mem_flatten ht
    rwa [tokenize_flatten l] at h2
  have hnd := noDbl_infix t l hinf hl
  rcases hhom with hws | hword
  · exact Or.inr (Or.inl ⟨hws, hnd⟩)
  · exact Or.inr (Or.inr ⟨hne, startsWs_of_word t hword, endsWs_of_word t hword, hnd⟩)

theorem content_suffix_dropWhile (c r : Str) (hsuf : List.IsSuffix r c)
    (h2 : endsWs c = false) (h3 : noDbl c = true) :
    startsWs (r.dropWhile isWs) = false ∧ endsWs (r.dropWhile isWs) = false ∧
      noDbl (r.dropWhile isWs) = true := by
  have hsuf2 : List.IsSuffix (r.dropWhile isWs) c :=
    (List.dropWhile_suffix isWs).trans hsuf
  refine ⟨startsWs_dropWhile_ws r, ?_, noDbl_infix _ _ hsuf2.isInfix h3⟩
  cases hr : r.dropWhile isWs with
  | nil => rfl
  | cons d rest =>
    obtain ⟨u, hu⟩ := hsuf2
    have hlast : c.getLast? = (r.dropWhile isWs).getLast? := by
      rw [← hu, List.getLast?_append_of_ne_nil u (by rw [hr]; exact List.cons_ne_nil _ _)]
    unfold endsWs at h2 ⊢
    rw [← hr, ← hlast]
    exact h2

theorem stripLeadKw_content (kw c : Str) (h1 : startsWs c = false)
    (h2 : endsWs c = false) (h3 : noDbl c = true) :
    startsWs (stripLeadKw kw c) = false ∧ endsWs (stripLeadKw kw c) = false ∧
      noDbl (stripLeadKw kw c) = true := by
  simp only [stripLeadKw]
  split
  · exact content_suffix_dropWhile c (c.drop kw.length)
      (List.drop_suffix kw.length c) h2 h3
  · exact ⟨h1, h2, h3⟩

theorem goodTok_set (L : List Str) (j : Nat) (v : Str)
    (hL : ∀ t ∈ L, goodTok t) (hv : goodTok v) : ∀ t ∈ L.set j v, goodTok t := by
  intro t ht
  rcases List.mem_or_eq_of_mem_set ht with h | h
  · exact hL t h
  · rw [h]
    exact hv

theorem applyRules_good (words : List Str) (phrase : List SWord)
    (tty nty : WordType) (lower c : Str)
    (hwords : ∀ t ∈ words, goodTok t)
    (h1 : startsWs c = false) (h2 : endsWs c = false) (h3 : noDbl c = true) :
    (∀ t ∈ (applyRules words phrase tty nty lower c).1, goodTok t) ∧
    startsWs (applyRules words phrase tty nty lower c).2 = false ∧
    endsWs (applyRules words phrase tty nty lower c).2 = false ∧
    noDbl (applyRules words phrase tty nty lower c).2 = true := by
  have hnext : goodTok (str "next") := by
    right; right
    refine ⟨by decide, by decide, by decide, by decide⟩
  have hin : goodTok (str "in") := by
    right; right
    refine ⟨by decide, by decide, by decide, by decide⟩
  have hat : goodTok (str "at") := by
    right; right
    refine ⟨by decide, by decide, by decide, by decide⟩
  have hempty : goodTok ([] : Str) := Or.inl rfl
  simp only [applyRules]
  by_cases hday : tty = WordType.day ∧ nty = WordType.day
  · rw [if_pos hday]
    cases hp : phrase.find? (fun m => decide (m.wtype = WordType.preposition)) with
    | none => exact ⟨hwords, h1, h2, h3⟩
    | some p =>
      dsimp only
      by_cases hA : p.word = str "on" ∧ hasSub lower (str "next") = true
      · rw [if_pos hA]
        exact ⟨goodTok_set _ _ _ hwords hnext, stripLeadKw_content _ c h1 h2 h3⟩
      · rw [if_neg hA]
        by_cases hB : hasSub lower (str "tomorrow") = false
        · rw [if_pos hB]
          exact ⟨hwords, h1, h2, h3⟩
        · rw [if_neg hB]
          by_cases hC : lower = str "tomorrow"
          · rw [if_pos hC]
            cases ht : phrase.find? (fun m => decide (m.wtype = WordType.temporal)) with
            | none => exact ⟨goodTok_set _ _ _ hwords hempty, h1, h2, h3⟩
            | some tmp =>
              exact ⟨goodTok_set _ _ _ (goodTok_set _ _ _ hwords hempty) hempty,
                h1, h2, h3⟩
          · rw [if_neg hC]
            exact ⟨hwords, h1, h2, h3⟩
  · rw [if_neg hday]
    by_cases hloc : tty = WordType.location ∧ nty = WordType.location
    · rw [if_pos hloc]
      cases hp : phrase.find? (fun m => decide (m.wtype = WordType.preposition)) with
      | none => exact ⟨hwords, h1, h2, h3⟩
      | some p =>
        dsimp only
        by_cases hA : lower = str "online"
        · rw [if_pos hA]
          cases ha : phrase.find? (fun m => decide (m.wtype = WordType.article)) with
          | none => exact ⟨goodTok_set _ _ _ hwords hempty, h1, h2, h3⟩
          | some art =>
            exact ⟨goodTok_set _ _ _ (goodTok_set _ _ _ hwords hempty) hempty,
              h1, h2, h3⟩
        · rw [if_neg hA]
          by_cases hB : isPrefixStr (str "in ") lower = true ∧ p.word ≠ str "in"
          · rw [if_pos hB]
            exact ⟨goodTok_set _ _ _ hwords hin, stripLeadKw_content _ c h1 h2 h3⟩
          · rw [if_neg hB]
            exact ⟨hwords, h1, h2, h3⟩
    · rw [if_neg hloc]
      by_cases htime : tty = WordType.time ∧ nty = WordType.time
      · rw [if_pos htime]
        cases hp : phrase.find? (fun m => decide (m.wtype = WordType.preposition)) with
        | none => exact ⟨hwords, h1, h2, h3⟩
        | some p =>
          dsimp only
          by_cases hA : isPrefixStr (str "at ") lower = true ∧ p.word ≠ str "at"
          · rw [if_pos hA]
            exact ⟨goodTok_set _ _ _ hwords hat, stripLeadKw_content _ c h1 h2 h3⟩
          · rw [if_neg hA]
            exact ⟨hwords, h1, h2, h3⟩
      · rw [if_neg htime]
        exact ⟨hwords, h1, h2, h3⟩

theorem goodTok_noDbl (t : Str) (hg : goodTok t) : noDbl t = true := by
  rcases hg with rfl | ⟨_, h⟩ | ⟨_, _, _, h⟩
  · rfl
  · exact h
  · exact h

theorem all_ws_false_of_nonempty_word (t : Str) (hne : t ≠ [])
    (hst : startsWs t = false) : t.all isWs = false := by
  cases t with
  | nil => exact absurd rfl hne
  | cons c t2 =>
    unfold startsWs at hst
    simp only [List.head?_cons] at hst
    rw [List.all_cons, hst, Bool.false_and]

theorem goodTok_word_props (t : Str) (hg : goodTok t) (hne : t ≠ [])
    (hall : t.all isWs = false) : startsWs t = false ∧ endsWs t = false := by
  rcases hg with rfl | ⟨hws, _⟩ | ⟨_, h1, h2, _⟩
  · exact absurd rfl hne
  · rw [hws] at hall
    exact Bool.noConfusion hall
  · exact ⟨h1, h2⟩

theorem cleanup_good_props (L : List Str) (h : ∀ t ∈ L, goodTok t) :
    ∀ prev,
      (∀ t ∈ cleanupToks L prev, goodTok t ∧ t ≠ []) ∧
      List.Chain' (fun a b : Str => ¬(a.all isWs = true ∧ b.all isWs = true))
        (cleanupToks L prev) ∧
      (prev = true → ∀ t2 ∈ (cleanupToks L prev).head?, t2.all isWs = false) := by
  induction L with
  | nil =>
    intro prev
    refine ⟨by intro t ht; simp [cleanupToks] at ht, by simp [cleanupToks], ?_⟩
    intro _ t2 ht2
    simp [cleanupToks] at ht2
  | cons w rest ih =>
    intro prev
    have hgw : goodTok w := h w (List.mem_cons_self w rest)
    have hrest : ∀ t ∈ rest, goodTok t := fun t ht => h t (List.mem_cons_of_mem w ht)
    by_cases he : w.isEmpty = true
    · rw [cleanupToks, if_pos he]
      exact ih hrest prev
    · have hne : w ≠ [] := fun hc => by
        rw [hc] at he
        exact he rfl
      rw [cleanupToks, if_neg he]
      by_cases hws : w.all isWs = true
      · cases prev with
        | true =>
          rw [if_pos (by rw [hws]; rfl)]
          exact ih hrest true
        | false =>
          rw [if_neg (by rw [Bool.and_false]; exact Bool.false_ne_true), hws]
          obtain ⟨ihall, ihchain, ihhead⟩ := ih hrest true
          refine ⟨?_, ?_, ?_⟩
          · intro t ht
            rcases List.mem_cons.mp ht with rfl | hm
            · exact ⟨hgw, hne⟩
            · exact ihall t hm
          · rw [List.chain'_cons']
            refine ⟨?_, ihchain⟩
            intro b hb
            intro hcon
            have := ihhead rfl b hb
            rw [this] at hcon
            exact Bool.noConfusion hcon.2
          · intro habs
            exact absurd habs (by simp)
      · have hallf : w.all isWs = false := by
          cases hx : w.all isWs
          · rfl
          · exact absurd hx hws
        rw [if_neg (by rw [hallf, Bool.false_and]; exact Bool.false_ne_true), hallf]
        obtain ⟨ihall, ihchain, _⟩ := ih hrest false
        refine ⟨?_, ?_, ?_⟩
        · intro t ht
          rcases List.mem_cons.mp ht with rfl | hm
          · exact ⟨hgw, hne⟩
          · exact ihall t hm
        · rw [List.chain'_cons']
          refine ⟨?_, ihchain⟩
          intro b _
          intro hcon
          rw [hallf] at hcon
          exact Bool.noConfusion hcon.1
        · intro _ t2 ht2
          simp only [List.head?_cons, Option.mem_def, Option.some.injEq] at ht2
          rw [← ht2]
          exact hallf

theorem head?_flatten_fix (w2 : Str) (rest : List Str) (hne : w2 ≠ []) :
    ((fixSpacing (w2 :: rest)).flatten).head? = w2.head? := by
  cases rest with
  | nil =>
    show ((w2 :: []).flatten).head? = _
    rw [List.flatten_cons, List.flatten_nil, List.append_nil]
  | cons w3 rest2 =>
    rw [fixSpacing]
    by_cases hcond : (!endsWs w2 && !startsWs w3) = true
    · rw [if_pos hcond, List.flatten_cons,
        List.head?_append_of_ne_nil _ (by
          intro hc
          rcases List.append_eq_nil.mp hc with ⟨h1, _⟩
          exact hne h1),
        List.head?_append_of_ne_nil _ hne]
    · rw [if_neg hcond, List.flatten_cons, List.head?_append_of_ne_nil _ hne]

theorem noDbl_flatten_fix (K : List Str)
    (hgood : ∀ t ∈ K, goodTok t ∧ t ≠ [])
    (hchain : List.Chain' (fun a b : Str => ¬(a.all isWs = true ∧ b.all isWs = true)) K) :
    noDbl (fixSpacing K).flatten = true := by
  induction K with
  | nil => rfl
  | cons w rest ih =>
    obtain ⟨hgw, hnew⟩ := hgood w (List.mem_cons_self w rest)
    have hndw : noDbl w = true := goodTok_noDbl w hgw
    cases rest with
    | nil =>
      show noDbl ((w :: []).flatten) = true
      rw [List.flatten_cons, List.flatten_nil, List.append_nil]
      exact hndw
    | cons w2 rest2 =>
      obtain ⟨hgw2, hnew2⟩ := hgood w2 (List.mem_cons_of_mem w (List.mem_cons_self w2 rest2))
      have hpair := (List.chain'_cons.mp hchain).1
      have hchain2 := (List.chain'_cons.mp hchain).2
      have hrest : ∀ t ∈ w2 :: rest2, goodTok t ∧ t ≠ [] :=
        fun t ht => hgood t (List.mem_cons_of_mem w ht)
      have htail := ih hrest hchain2
      have hhead := head?_flatten_fix w2 rest2 hnew2
      rw [fixSpacing, List.flatten_cons]
      by_cases hcond : (!endsWs w && !startsWs w2) = true
      · rw [if_pos hcond]
        rw [Bool.and_eq_true] at hcond
        have hendw : endsWs w = false := by
          cases hx : endsWs w
          · rfl
          · have := hcond.1
            rw [hx] at this
            exact Bool.noConfusion this
        have hstw2 : startsWs w2 = false := by
          cases hx : startsWs w2
          · rfl
          · have := hcond.2
            rw [hx] at this
            exact Bool.noConfusion this
        apply noDbl_append_intro (w ++ [' ']) _ ?_ htail ?_
        · apply noDbl_append_intro w [' '] hndw rfl
          intro hl _
          unfold endsWs at hendw
          rw [hl] at hendw
          simp [isWs] at hendw
        · intro _ hh
          rw [hhead] at hh
          unfold startsWs at hstw2
          rw [hh] at hstw2
          simp [isWs] at hstw2
      · rw [if_neg hcond]
        apply noDbl_append_intro w _ hndw htail ?_
        intro hl hh
        rw [hhead] at hh
        by_cases hwall : w.all isWs = true
        · have hw2all : w2.all isWs = false := by
            cases hx : w2.all isWs
            · rfl
            · exact absurd ⟨hwall, hx⟩ hpair
          have hw2props := goodTok_word_props w2 hgw2 hnew2 hw2all
          unfold startsWs at hw2props
          rw [hh] at hw2props
          have := hw2props.1
          simp [isWs] at this
        · have hallf : w.all isWs = false := by
            cases hx : w.all isWs
            · rfl
            · exact absurd hx hwall
          have hwprops := goodTok_word_props w hgw hnew hallf
          unfold endsWs at hwprops
          rw [hl] at hwprops
          have := hwprops.2
          simp [isWs] at this

theorem reassembleCode_noDbl (L : List Str) (h : ∀ t ∈ L, goodTok t) :
    noDbl (reassembleCode L) = true := by
  rw [reassembleCode]
  obtain ⟨hall, hchain, _⟩ := cleanup_good_props L h false
  exact noDbl_flatten_fix _ hall hchain

theorem noDbl_getD (l : List Str) (n : Nat) (h : ∀ e ∈ l, noDbl e = true) :
    noDbl (l.getD n []) = true := by
  rw [List.getD_eq_getElem?_getD]
  cases hg : l[n]? with
  | none => rfl
  | some e =>
    rw [Option.getD_some]
    exact h e (List.getElem?_mem hg)

theorem noDblState_pushHistory (s : EditorState) (t : Str) (h : noDblState s)
    (ht : noDbl t = true) : noDblState (pushHistory s t) := by
  refine ⟨ht, ?_⟩
  intro e he
  simp only [pushHistory] at he
  rcases List.mem_append.mp he with hm | hm
  · exact h.2 e (List.mem_of_mem_take hm)
  · rw [List.mem_singleton.mp hm]
    exact ht

theorem applySemanticEdit_noDblState (s : EditorState) (i : Nat) (c : Str)
    (h : noDblState s) (h1 : startsWs c = false) (h2 : endsWs c = false)
    (h3 : noDbl c = true) : noDblState (applySemanticEdit s i c) := by
  rw [applySemanticEdit]
  split
  · exact h
  · cases hf : (buildStructured (tokenize s.text) 0).find?
        (fun w => decide (w.index = i)) with
    | none =>
      simp only [hf]
      exact h
    | some tw =>
      simp only [hf]
      apply noDblState_pushHistory s _ h
      apply reassembleCode_noDbl
      apply goodTok_set
      · exact (applyRules_good _ _ _ _ _ _ (goodTok_tokenize s.text h.1) h1 h2 h3).1
      · have hr := applyRules_good (tokenize s.text)
          (findPhraseMembers (buildStructured (tokenize s.text) 0) tw)
          tw.wtype (classifyNewContent (lowerStr (trimStr c)))
          (lowerStr (trimStr c)) c (goodTok_tokenize s.text h.1) h1 h2 h3
        exact goodTok_of_content _ hr.2.1 hr.2.2.1 hr.2.2.2

theorem appendDictation_noDblState (s : EditorState) (c : Str)
    (h : noDblState s) (hc : noDbl c = true) :
    noDblState (appendDictation s c) := by
  rw [appendDictation]
  split
  · exact h
  · next hguard =>
    apply noDblState_pushHistory s _ h
    have htrim_nd : noDbl (trimStr c) = true := noDbl_infix _ _ (trimStr_within c) hc
    have hheadne : (trimStr c).head? = some ' ' → False := by
      intro hh
      have hst := startsWs_trimStr c
      unfold startsWs at hst
      rw [hh] at hst
      simp [isWs] at hst
    by_cases hns : (!(trimStr s.text).isEmpty && !endsWs s.text) = true
    · rw [if_pos hns]
      rw [Bool.and_eq_true] at hns
      have hend : endsWs s.text = false := by
        cases hx : endsWs s.text
        · rfl
        · have := hns.2
          rw [hx] at this
          exact Bool.noConfusion this
      apply noDbl_append_intro (s.text ++ [' ']) _ ?_ htrim_nd
        (fun _ hh => hheadne hh)
      apply noDbl_append_intro s.text [' '] h.1 rfl
      intro hl _
      unfold endsWs at hend
      rw [hl] at hend
      simp [isWs] at hend
    · rw [if_neg hns]
      rw [List.append_nil]
      apply noDbl_append_intro s.text _ h.1 htrim_nd
      intro _ hh
      exact hheadne hh

theorem deleteWord_noDblState (s : EditorState) (i : Nat)
    (h : noDblState s) : noDblState (deleteWord s i) := by
  rw [deleteWord]
  cases hg : (tokenize s.text).get? i with
  | none => exact h
  | some w =>
    dsimp only
    split
    · exact h
    · exact noDblState_pushHistory s _ h (noDbl_trim_collapse _)

theorem undo_noDblState (s : EditorState) (h : noDblState s) :
    noDblState (undo s) := by
  rw [undo]
  split
  · exact ⟨noDbl_getD _ _ h.2, h.2⟩
  · exact h

theorem redo_noDblState (s : EditorState) (h : noDblState s) :
    noDblState (redo s) := by
  rw [redo]
  split
  · exact ⟨noDbl_getD _ _ h.2, h.2⟩
  · exact h

theorem noDblState_applyOp (s : EditorState) (op : EngineOp)
    (h : noDblState s) (hop : cleanOp op = true) : noDblState (applyOp s op) := by
  cases op with
  | sem i c =>
    rw [cleanOp, Bool.and_eq_true, Bool.and_eq_true] at hop
    obtain ⟨⟨hst, hend⟩, hnd⟩ := hop
    rw [Bool.not_eq_true'] at hst hend
    exact applySemanticEdit_noDblState s i c h hst hend hnd
  | dict c => exact appendDictation_noDblState s c h hop
  | del i => exact deleteWord_noDblState s i h
  | undoOp => exact undo_noDblState s h
  | redoOp => exact redo_noDblState s h

theorem noDblState_runOps (ops : List EngineOp) :
    ∀ s, noDblState s → (∀ op ∈ ops, cleanOp op = true) →
      noDblState (runOps s ops) := by
  induction ops with
  | nil => intro s h _; exact h
  | cons op rest ih =>
    intro s h hops
    exact ih (applyOp s op)
      (noDblState_applyOp s op h (hops op (List.mem_cons_self op rest)))
      (fun o ho => hops o (List.mem_cons_of_mem op ho))

/-- C4 counterexample: a single dictation of "a  b" (internal double
space) onto the empty document is a reachable state whose text contains
two adjacent spaces — the engine never normalizes inside dictated
content. -/
theorem C4_counterexample :
    (runOps (initState (str "")) [.dict (str "a  b")]).text = str "a  b" ∧
    noDbl ((runOps (initState (str "")) [.dict (str "a  b")]).text) = false := by
  decide

/-- C4 (amended): if the initial text has no two adjacent spaces and every
operation's content is clean — targeted-edit content with no edge
whitespace and no adjacent spaces, dictation content with no adjacent
spaces — then every reachable document state is free of double spaces.
Arbitrary contents break the invariant, as the counterexample shows. -/
theorem C4_no_double_spaces_amended (t : Str) (ops : List EngineOp)
    (ht : noDbl t = true) (hops : ∀ op ∈ ops, cleanOp op = true) :
    noDbl ((runOps (initState t) ops).text) = true := by
  have hinit : noDblState (initState t) := by
    refine ⟨ht, ?_⟩
    intro e he
    simp only [initState] at he
    rw [List.mem_singleton.mp he]
    exact ht
  exact (noDblState_runOps ops (initState t) hinit hops).1

/-- C4 witness: a targeted edit followed by a dictation on a concrete
clean document. -/
theorem C4_no_double_spaces_amended_witness :
    noDbl ((runOps (initState (str "Meet me here"))
      [.sem 0 (str "Call"), .dict (str "now")]).text) = true :=
  C4_no_double_spaces_amended (str "Meet me here")
    [.sem 0 (str "Call"), .dict (str "now")] (by decide) (by decide)

/-- C1: from "Meeting on Monday at 3pm" with the token "Monday" (token
index 4) selected, a targeted edit with content "tomorrow" yields exactly
"Meeting tomorrow at 3pm", removing the preposition "on". -/
theorem C1_tomorrow_drops_preposition :
    (applySemanticEdit (initState (str "Meeting on Monday at 3pm")) 4
      (str "tomorrow")).text = str "Meeting tomorrow at 3pm" := by decide

/-- C6: from "Meet me at the Studio" with the token "Studio" (token index
8) selected, a targeted edit with content "online" yields exactly
"Meet me online", removing both the preposition "at" and the article
"the". -/
theorem C6_online_drops_preposition_and_article :
    (applySemanticEdit (initState (str "Meet me at the Studio")) 8
      (str "online")).text = str "Meet me online" := by decide

/-- C2 counterexample: the new-content classifier does not assign
Location to the single words "room" and "home" — its location pattern is
`(conference room|office|studio|building|online)`, which matches neither. -/
theorem C2_counterexample :
    classifyNewContent (str "room") ≠ WordType.location ∧
    classifyNewContent (str "home") ≠ WordType.location := by decide

/-- C2 (amended): of the listed replacement-content strings, "studio",
"office", "building", "conference room" and "online" are classified
Location, but the single words "room" and "home" fall through to Other. -/
theorem C2_new_content_location_amended :
    classifyNewContent (str "studio") = WordType.location ∧
    classifyNewContent (str "office") = WordType.location ∧
    classifyNewContent (str "building") = WordType.location ∧
    classifyNewContent (str "conference room") = WordType.location ∧
    classifyNewContent (str "online") = WordType.location ∧
    classifyNewContent (str "room") = WordType.other ∧
    classifyNewContent (str "home") = WordType.other := by decide

/-- C8: empty or whitespace-only new content makes both the targeted edit
path and the dictation path complete no-ops: state (text, history and
cursor) is returned unchanged. -/
theorem C8_blank_content_noop (s : EditorState) (i : Nat) (c : Str)
    (h : (trimStr c).isEmpty = true) :
    applySemanticEdit s i c = s ∧ appendDictation s c = s := by
  constructor
  · unfold applySemanticEdit
    simp [h]
  · unfold appendDictation
    simp [h]

/-- C8 witness at a concrete state and whitespace-only content. -/
theorem C8_blank_content_noop_witness :
    applySemanticEdit (initState (str "Meet me")) 0 (str "  ") = initState (str "Meet me") ∧
    appendDictation (initState (str "Meet me")) (str "  ") = initState (str "Meet me") :=
  C8_blank_content_noop (initState (str "Meet me")) 0 (str "  ") (by decide)

/-- C10: every category pattern is an unanchored substring test, so any
word that escapes the day, time and location patterns but contains one of
the preposition substrings is classified Preposition; in particular "cat"
is a Preposition and "banana" is an Article. -/
theorem C10_unanchored_substring_classification :
    (∀ w : Str, dayPat w = false → timePat w = false → locPat w = false →
      prepPat w = true → classifyWord w = WordType.preposition) ∧
    classifyWord (lowerStr (str "cat")) = WordType.preposition ∧
    classifyWord (lowerStr (str "banana")) = WordType.article := by
  refine ⟨?_, by decide, by decide⟩
  intro w h1 h2 h3 h4
  simp [classifyWord, h1, h2, h3, h4]

/-- C10 witness: the general branch applied to the concrete word "cat". -/
theorem C10_unanchored_substring_classification_witness :
    classifyWord (str "cat") = WordType.preposition :=
  C10_unanchored_substring_classification.1 (str "cat")
    (by decide) (by decide) (by decide) (by decide)

theorem wf_initState (t : Str) : WFState (initState t) := by
  constructor <;> simp [initState]

theorem wf_pushHistory (s : EditorState) (t : Str) : WFState (pushHistory s t) := by
  constructor
  · simp [pushHistory]
  · simp only [pushHistory, List.length_append, List.length_take]
    rw [List.getD_eq_getElem?_getD, List.getElem?_append_right (by simp)]
    simp

theorem wf_applyOp (s : EditorState) (h : WFState s) (op : EngineOp) :
    WFState (applyOp s op) := by
  obtain ⟨h1, h2⟩ := h
  cases op with
  | sem i c =>
    show WFState (applySemanticEdit s i c)
    simp only [applySemanticEdit]
    split
    · exact ⟨h1, h2⟩
    · split
      · exact ⟨h1, h2⟩
      · exact wf_pushHistory s _
  | dict c =>
    show WFState (appendDictation s c)
    simp only [appendDictation]
    split
    · exact ⟨h1, h2⟩
    · exact wf_pushHistory s _
  | del i =>
    show WFState (deleteWord s i)
    simp only [deleteWord]
    split
    · exact ⟨h1, h2⟩
    · split
      · exact ⟨h1, h2⟩
      · exact wf_pushHistory s _
  | undoOp =>
    show WFState (undo s)
    unfold undo
    split
    · exact ⟨by dsimp only; omega, by dsimp only⟩
    · exact ⟨h1, h2⟩
  | redoOp =>
    show WFState (redo s)
    unfold redo
    split
    · next hlt => exact ⟨by dsimp only; omega, by dsimp only⟩
    · exact ⟨h1, h2⟩

theorem wf_runOps (s : EditorState) (h : WFState s) (ops : List EngineOp) :
    WFState (runOps s ops) := by
  induction ops generalizing s with
  | nil => exact h
  | cons op rest ih => exact ih (applyOp s op) (wf_applyOp s h op)

/-- A well-formed state with positive cursor is restored exactly by
undo-then-redo. -/
theorem undo_redo_of_wf (s : EditorState) (h : WFState s)
    (hpos : 0 < s.historyIndex) : redo (undo s) = s := by
  obtain ⟨h1, h2⟩ := h
  cases s with
  | mk t hist hi =>
    dsimp only at h1 h2 hpos
    unfold undo
    rw [if_pos hpos]
    unfold redo
    dsimp only
    rw [if_pos (by omega)]
    have hidx : hi - 1 + 1 = hi := by omega
    rw [hidx, h2]

/-- C7: in any engine state reachable from an initial text by a sequence
of operations, if the history cursor is above 0 then undo followed by
redo restores the text byte-identically and returns the cursor to its
previous position. -/
theorem C7_undo_redo_exact (t : Str) (ops : List EngineOp)
    (h : 0 < (runOps (initState t) ops).historyIndex) :
    (redo (undo (runOps (initState t) ops))).text = (runOps (initState t) ops).text ∧
    (redo (undo (runOps (initState t) ops))).historyIndex =
      (runOps (initState t) ops).historyIndex := by
  rw [undo_redo_of_wf _ (wf_runOps _ (wf_initState t) ops) h]
  exact ⟨rfl, rfl⟩

/-- C3 counterexample: with four prepositions before a day target, the
backward scan still collects the word at structured position 0 even
though the target sits at structured position 4 — the distance check runs
only after a word was already included, so the cap is 4 positions, not 3. -/
theorem C3_counterexample :
    (⟨0, str "at", WordType.preposition⟩ : SWord) ∈ findPhraseMembers swEx tgtEx ∧
    swEx.findIdx? (fun w => decide (w.index = tgtEx.index)) = some 4 ∧
    swEx.get? 0 = some ⟨0, str "at", WordType.preposition⟩ := by decide

theorem backScan_mem_dist (sw : List SWord) (tT : WordType) (tIdx : Nat) :
    ∀ a, ∀ w ∈ backScan sw tT tIdx a,
      ∃ p, sw.get? p = some w ∧ p < a ∧ (tIdx - p ≤ 4 ∨ p = a - 1) := by
  intro a
  induction a with
  | zero => intro w hw; simp [backScan] at hw
  | succ a ih =>
    intro w hw
    rw [backScan] at hw
    cases hga : sw.get? a with
    | none => rw [hga] at hw; simp at hw
    | some v =>
      simp only [hga] at hw
      split_ifs at hw with h1 h2 h3 h4
      · rcases List.mem_singleton.mp hw with rfl
        exact ⟨a, hga, by omega, Or.inr rfl⟩
      · rcases List.mem_cons.mp hw with rfl | hmem
        · exact ⟨a, hga, by omega, Or.inr rfl⟩
        · obtain ⟨p, hg, hlt, hd⟩ := ih w hmem
          refine ⟨p, hg, by omega, Or.inl ?_⟩
          rcases hd with hd | hd <;> omega
      · simp at hw
      · simp at hw
      · obtain ⟨p, hg, hlt, hd⟩ := ih w hw
        refine ⟨p, hg, by omega, Or.inl ?_⟩
        rcases hd with hd | hd <;> omega

theorem fwdScan_mem_dist (sw : List SWord) (tT : WordType) (tIdx : Nat) :
    ∀ fuel i, ∀ w ∈ fwdScan sw tT tIdx i fuel,
      ∃ p, sw.get? p = some w ∧ i ≤ p ∧ (p - tIdx ≤ 4 ∨ p = i) := by
  intro fuel
  induction fuel with
  | zero => intro i w hw; simp [fwdScan] at hw
  | succ fuel ih =>
    intro i w hw
    rw [fwdScan] at hw
    cases hga : sw.get? i with
    | none => rw [hga] at hw; simp at hw
    | some v =>
      simp only [hga] at hw
      split_ifs at hw with h1 h2 h3 h4
      · rcases List.mem_singleton.mp hw with rfl
        exact ⟨i, hga, Nat.le_refl i, Or.inr rfl⟩
      · rcases List.mem_cons.mp hw with rfl | hmem
        · exact ⟨i, hga, Nat.le_refl i, Or.inr rfl⟩
        · obtain ⟨p, hg, hle, hd⟩ := ih (i + 1) w hmem
          refine ⟨p, hg, by omega, Or.inl ?_⟩
          rcases hd with hd | hd <;> omega
      · simp at hw
      · simp at hw
      · obtain ⟨p, hg, hle, hd⟩ := ih (i + 1) w hw
        refine ⟨p, hg, by omega, Or.inl ?_⟩
        rcases hd with hd | hd <;> omega

/-- C3 (amended): every phrase member other than the target itself sits
within 4 structured positions of the target (and 4 is attained): each
scan can include the word at the fourth scanned position before its
hard-stop fires. -/
theorem C3_phrase_scan_cap_amended (sw : List SWord) (target : SWord) (tIdx : Nat)
    (h : sw.findIdx? (fun w => decide (w.index = target.index)) = some tIdx) :
    ∀ w ∈ findPhraseMembers sw target, w = target ∨
      ∃ p, sw.get? p = some w ∧ tIdx - p ≤ 4 ∧ p - tIdx ≤ 4 := by
  intro w hw
  rw [findPhraseMembers, h] at hw
  rcases List.mem_cons.mp hw with heq | hmem
  · exact Or.inl heq
  · right
    rcases List.mem_append.mp hmem with hb | hf
    · obtain ⟨p, hg, hlt, hd⟩ := backScan_mem_dist sw target.wtype tIdx tIdx w hb
      refine ⟨p, hg, ?_, by omega⟩
      rcases hd with hd | hd <;> omega
    · obtain ⟨p, hg, hge, hd⟩ :=
        fwdScan_mem_dist sw target.wtype tIdx (sw.length + 1) (tIdx + 1) w hf
      refine ⟨p, hg, by omega, ?_⟩
      rcases hd with hd | hd <;> omega

/-- C3 witness: the amended bound applied to the concrete scan where the
distance 4 is attained. -/
theorem C3_phrase_scan_cap_amended_witness :
    (⟨0, str "at", WordType.preposition⟩ : SWord) = tgtEx ∨
      ∃ p, swEx.get? p = some ⟨0, str "at", WordType.preposition⟩ ∧
        4 - p ≤ 4 ∧ p - 4 ≤ 4 :=
  C3_phrase_scan_cap_amended swEx tgtEx 4 (by decide)
    ⟨0, str "at", WordType.preposition⟩ (by decide)

theorem buildStructured_index_char (l : List Str) (k : Nat) (sw : SWord)
    (h : sw ∈ buildStructured l k) :
    ∃ j w, sw.index = k + j ∧ l.get? j = some w ∧ (trimStr w).isEmpty = false := by
  induction l generalizing k with
  | nil => simp [buildStructured] at h
  | cons w rest ih =>
    by_cases hw : (trimStr w).isEmpty = true
    · rw [buildStructured, if_pos hw] at h
      obtain ⟨j, w', hj, hg, ht⟩ := ih (k + 1) h
      exact ⟨j + 1, w', by omega, by simpa using hg, ht⟩
    · rw [buildStructured, if_neg hw] at h
      rcases List.mem_cons.mp h with heq | hmem
      · exact ⟨0, w, by rw [heq]; simp, rfl, by simpa using hw⟩
      · obtain ⟨j, w', hj, hg, ht⟩ := ih (k + 1) hmem
        exact ⟨j + 1, w', by omega, by simpa using hg, ht⟩

/-- C9: a selection index that refers to a whitespace token or lies out of
range never resolves to a structured word, so a targeted edit with any
non-blank content leaves the whole state unchanged. -/
theorem C9_target_not_found (s : EditorState) (i : Nat) (c : Str)
    (hc : (trimStr c).isEmpty = false)
    (h : (tokenize s.text).get? i = none ∨
      ∃ w, (tokenize s.text).get? i = some w ∧ (trimStr w).isEmpty = true) :
    applySemanticEdit s i c = s := by
  have hnone :
      (buildStructured (tokenize s.text) 0).find? (fun w => decide (w.index = i)) = none := by
    rw [List.find?_eq_none]
    intro sw hsw
    obtain ⟨j, w, hj, hg, ht⟩ := buildStructured_index_char _ _ _ hsw
    simp only [Nat.zero_add] at hj
    simp only [decide_eq_true_eq]
    intro heq
    rw [heq] at hj
    subst hj
    rcases h with h | ⟨w', hw', ht'⟩
    · rw [h] at hg
      exact Option.noConfusion hg
    · rw [hw'] at hg
      cases hg
      rw [ht'] at ht
      exact Bool.noConfusion ht
  simp only [applySemanticEdit, hc, Bool.false_eq_true, if_false, hnone]

/-- C9 witness: selecting the whitespace run at token index 1. -/
theorem C9_target_not_found_witness :
    applySemanticEdit (initState (str "Meet me")) 1 (str "online") =
      initState (str "Meet me") :=
  C9_target_not_found (initState (str "Meet me")) 1 (str "online") (by decide)
    (Or.inr ⟨str " ", by decide, by decide⟩)

/-- C7 witness: one dictation edit on "a", then undo-redo restoration. -/
theorem C7_undo_redo_exact_witness :
    (redo (undo (runOps (initState (str "a")) [.dict (str "b")]))).text =
      (runOps (initState (str "a")) [.dict (str "b")]).text ∧
    (redo (undo (runOps (initState (str "a")) [.dict (str "b")]))).historyIndex =
      (runOps (initState (str "a")) [.dict (str "b")]).historyIndex :=
  C7_undo_redo_exact (str "a") [.dict (str "b")] (by decide)
